import Mathlib

/-!
Verification of the allocation core of the ATLAS repository
(`ras_module.py` and `tiv_module.py`): string/label helpers, the IPF
(RAS) engine, exact two-decimal matrix rounding, and the TIV
largest-remainder cents allocator.  Real-valued (float) quantities of the
source are modelled by exact rationals; pandas cells are modelled as
`Option String` (`none` is NaN).
-/

namespace Atlas

/-! ## Python string primitives used by both modules -/

/-- Characters stripped by Python `str.strip()` (whitespace, including
the non-breaking space). -/
def pySpace (c : Char) : Bool :=
  c = ' ' || c = '\t' || c = '\n' || c = '\r' || c = '\x0b' || c = '\x0c' || c = '\xa0'

/-- Python `str.strip()`. -/
def pyStrip (s : String) : String :=
  ⟨((s.toList.dropWhile pySpace).reverse.dropWhile pySpace).reverse⟩

/-- Python `str.lower()` (ASCII). -/
def pyLower (s : String) : String := ⟨s.toList.map Char.toLower⟩

/-- Python `str.replace("\xa0", " ")` (single-character pattern). -/
def pyDropNbsp (s : String) : String := ⟨s.toList.map (fun c => if c = '\xa0' then ' ' else c)⟩

/-! ## unique_ordered

`ras_module.unique_ordered` (lines 35-41) keeps a trimmed label when it
is non-empty and unseen.  `tiv_module.unique_ordered` (lines 36-42)
additionally drops labels whose lowercase form is "nan" or "none".
Both are the same loop over the series with a `seen` set, differing only
in the keep condition. -/

def uniqueOrderedGo (keep : String → Bool) : List String → List String → List String
  | _, [] => []
  | seen, v :: rest =>
    let v' := pyStrip v
    if keep v' ∧ v' ∉ seen then v' :: uniqueOrderedGo keep (v' :: seen) rest
    else uniqueOrderedGo keep seen rest

/-- `unique_ordered` of `ras_module.py`: keep trimmed non-empty labels,
first occurrence wins. -/
def rasUniqueOrdered (l : List String) : List String :=
  uniqueOrderedGo (fun v => !(v = "")) [] l

/-- `unique_ordered` of `tiv_module.py`: additionally exclude labels
whose lowercase form is "nan" or "none". -/
def tivUniqueOrdered (l : List String) : List String :=
  uniqueOrderedGo (fun v => !(v = "") && !(pyLower v = "nan") && !(pyLower v = "none")) [] l

theorem uniqueOrderedGo_sublist (keep : String → Bool) (seen l : List String) :
    (uniqueOrderedGo keep seen l).Sublist (l.map pyStrip) := by
  induction l generalizing seen with
  | nil => simp [uniqueOrderedGo]
  | cons v rest ih =>
    simp only [uniqueOrderedGo, List.map_cons]
    split
    · exact List.Sublist.cons₂ _ (ih _)
    · exact List.Sublist.cons _ (ih _)

theorem uniqueOrderedGo_keep (keep : String → Bool) (seen l : List String) :
    ∀ x ∈ uniqueOrderedGo keep seen l, keep x = true := by
  induction l generalizing seen with
  | nil => simp [uniqueOrderedGo]
  | cons v rest ih =>
    intro x hx
    simp only [uniqueOrderedGo] at hx
    split at hx
    · rcases List.mem_cons.mp hx with h | h
      · subst h; rename_i hcond; exact hcond.1
      · exact ih _ _ h
    · exact ih _ _ hx

theorem uniqueOrderedGo_not_seen (keep : String → Bool) (seen l : List String) :
    ∀ x ∈ uniqueOrderedGo keep seen l, x ∉ seen := by
  induction l generalizing seen with
  | nil => simp [uniqueOrderedGo]
  | cons v rest ih =>
    intro x hx
    simp only [uniqueOrderedGo] at hx
    split at hx
    · rcases List.mem_cons.mp hx with h | h
      · subst h; rename_i hcond; exact hcond.2
      · intro hxs
        exact (ih _ _ h) (List.mem_cons_of_mem _ hxs)
    · exact ih _ _ hx

theorem uniqueOrderedGo_nodup (keep : String → Bool) (seen l : List String) :
    (uniqueOrderedGo keep seen l).Nodup := by
  induction l generalizing seen with
  | nil => simp [uniqueOrderedGo]
  | cons v rest ih =>
    simp only [uniqueOrderedGo]
    split
    · refine List.nodup_cons.mpr ⟨?_, ih _⟩
      intro hmem
      exact (uniqueOrderedGo_not_seen keep _ rest _ hmem) (List.mem_cons_self _ _)
    · exact ih _

theorem uniqueOrderedGo_complete (keep : String → Bool) (seen l : List String)
    (v : String) (hv : v ∈ l) (hk : keep (pyStrip v) = true) :
    pyStrip v ∈ uniqueOrderedGo keep seen l ∨ pyStrip v ∈ seen := by
  induction l generalizing seen with
  | nil => cases hv
  | cons w rest ih =>
    rcases List.mem_cons.mp hv with h | h
    · subst h
      simp only [uniqueOrderedGo]
      by_cases hs : pyStrip v ∈ seen
      · exact Or.inr hs
      · rw [if_pos ⟨hk, hs⟩]
        exact Or.inl (List.mem_cons_self _ _)
    · simp only [uniqueOrderedGo]
      split
      · rcases ih _ h with h1 | h1
        · exact Or.inl (List.mem_cons_of_mem _ h1)
        · rcases List.mem_cons.mp h1 with h2 | h2
          · exact Or.inl (h2 ▸ List.mem_cons_self _ _)
          · exact Or.inr h2
      · exact ih _ h

/-- C8 counterexample: the claim says `unique_ordered` excludes
"nan"-like labels, citing both modules; the RAS version keeps them
(only the TIV version filters "nan"/"none"), so on the input
`["nan"]` the RAS version returns `["nan"]`, not `[]`. -/
theorem c8_counterexample :
    rasUniqueOrdered ["nan"] = ["nan"] ∧ tivUniqueOrdered ["nan"] = [] := by
  constructor <;> decide

/-- C8 (amended): both `unique_ordered` versions return the trimmed
labels with duplicates removed and first-seen order preserved (the
result is a sublist of the trimmed input, has no duplicates, and
contains every admissible trimmed label), excluding empty labels; the
TIV version additionally excludes "nan"-like labels ("nan"/"none",
case-insensitive) while the RAS version keeps them.  In particular
`["L2", "L1", "L2", "", "L1"]` yields exactly `["L2", "L1"]` under
both. -/
theorem c8_unique_ordered :
    (∀ l : List String,
      (rasUniqueOrdered l).Sublist (l.map pyStrip)
      ∧ (rasUniqueOrdered l).Nodup
      ∧ (∀ v ∈ rasUniqueOrdered l, v ≠ "")
      ∧ (∀ v ∈ l, pyStrip v ≠ "" → pyStrip v ∈ rasUniqueOrdered l))
    ∧ (∀ l : List String,
      (tivUniqueOrdered l).Sublist (l.map pyStrip)
      ∧ (tivUniqueOrdered l).Nodup
      ∧ (∀ v ∈ tivUniqueOrdered l, v ≠ "" ∧ pyLower v ≠ "nan" ∧ pyLower v ≠ "none")
      ∧ (∀ v ∈ l, pyStrip v ≠ "" → pyLower (pyStrip v) ≠ "nan" →
          pyLower (pyStrip v) ≠ "none" → pyStrip v ∈ tivUniqueOrdered l))
    ∧ rasUniqueOrdered ["L2", "L1", "L2", "", "L1"] = ["L2", "L1"]
    ∧ tivUniqueOrdered ["L2", "L1", "L2", "", "L1"] = ["L2", "L1"] := by
  refine ⟨fun l => ⟨uniqueOrderedGo_sublist _ _ _, uniqueOrderedGo_nodup _ _ _, ?_, ?_⟩,
    fun l => ⟨uniqueOrderedGo_sublist _ _ _, uniqueOrderedGo_nodup _ _ _, ?_, ?_⟩,
    by decide, by decide⟩
  · intro v hv
    have := uniqueOrderedGo_keep _ _ _ v hv
    simpa using this
  · intro v hv hne
    have := uniqueOrderedGo_complete (fun v => !(v = "")) [] l v hv (by simpa using hne)
    simpa using this
  · intro v hv
    have := uniqueOrderedGo_keep _ _ _ v hv
    simp only [Bool.and_eq_true, Bool.not_eq_true', decide_eq_false_iff_not] at this
    exact ⟨this.1.1, this.1.2, this.2⟩
  · intro v hv h1 h2 h3
    have := uniqueOrderedGo_complete
      (fun v => !(v = "") && !(pyLower v = "nan") && !(pyLower v = "none")) [] l v hv
      (by simp only [Bool.and_eq_true, Bool.not_eq_true', decide_eq_false_iff_not]
          exact ⟨⟨h1, h2⟩, h3⟩)
    simpa using this

/-- C8 witness: the amended theorem applied at a concrete label list. -/
theorem c8_unique_ordered_witness :
    " L1 " ∈ ["x", " L1 "] ∧ pyStrip " L1 " ≠ ""
      ∧ pyStrip " L1 " ∈ rasUniqueOrdered ["x", " L1 "] :=
  ⟨by decide, by decide, c8_unique_ordered.1 ["x", " L1 "] |>.2.2.2 " L1 " (by decide) (by decide)⟩

/-! ## Rounding to nearest integer, ties to even

Models Python `round()` and `np.rint` (both round half to even), used
for `int(round(premium_total * 100))` in `tiv_module.py` line 185 and
`np.rint(... * 100)` in `ras_module.py` lines 114-115. -/

def rint (q : ℚ) : ℤ :=
  if q - ⌊q⌋ < 1/2 then ⌊q⌋
  else if (1:ℚ)/2 < q - ⌊q⌋ then ⌊q⌋ + 1
  else if 2 ∣ ⌊q⌋ then ⌊q⌋ else ⌊q⌋ + 1

theorem rint_nonneg (q : ℚ) (hq : 0 ≤ q) : 0 ≤ rint q := by
  have h0 : (0:ℤ) ≤ ⌊q⌋ := Int.floor_nonneg.mpr hq
  unfold rint
  split
  · exact h0
  · split
    · omega
    · split
      · exact h0
      · omega

theorem rint_intCast (z : ℤ) : rint (z : ℚ) = z := by
  unfold rint
  rw [Int.floor_intCast]
  norm_num

/-! ## Stable descending sort by a rational key

Models the stable `list.sort(key=..., reverse=True)` of
`ras_module.py` line 122 and `np.argsort(-rema)` of `tiv_module.py`
line 191 (ties resolved by original index order, one admissible
resolution of numpy's unspecified quicksort tie order). -/

def insertDescBy {α : Type} (key : α → ℚ) (x : α) : List α → List α
  | [] => [x]
  | y :: ys => if key x < key y then y :: insertDescBy key x ys else x :: y :: ys

def sortDescBy {α : Type} (key : α → ℚ) : List α → List α
  | [] => []
  | x :: xs => insertDescBy key x (sortDescBy key xs)

theorem insertDescBy_perm {α : Type} (key : α → ℚ) (x : α) (l : List α) :
    List.Perm (insertDescBy key x l) (x :: l) := by
  induction l with
  | nil => exact List.Perm.refl _
  | cons y ys ih =>
    simp only [insertDescBy]
    split
    · exact ((ih.cons y).trans (List.Perm.swap x y ys))
    · exact List.Perm.refl _

theorem sortDescBy_perm {α : Type} (key : α → ℚ) (l : List α) :
    List.Perm (sortDescBy key l) l := by
  induction l with
  | nil => exact List.Perm.refl _
  | cons x xs ih =>
    exact (insertDescBy_perm key x (sortDescBy key xs)).trans (ih.cons x)

/-! ## allocate_cents_for_coverage (tiv_module.py lines 165-199)

The core is expressed on the weight vector already extracted from the
location map; `allocate_cents` returns the integer-cent amounts in
`loc_list` order and the wrapper re-attaches the labels and converts
back to dollars, exactly as the source does. -/

/-- Weight normalization of `allocate_cents_for_coverage` (lines
180-183): uniform `1/n` when the total weight is not positive, else
proportional shares. -/
def allocWeights (tivs : List ℚ) : List ℚ :=
  if tivs.sum ≤ 0 then List.replicate tivs.length ((1:ℚ) / tivs.length)
  else tivs.map (· / tivs.sum)

/-- Main branch of `allocate_cents_for_coverage` (lines 185-196):
floor of each proportional cent share, then one extra cent to the
`remain` entries with the largest fractional remainders. -/
def allocMain (premium_total : ℚ) (tivs : List ℚ) : List ℤ :=
  let n := tivs.length
  let weights := allocWeights tivs
  let cents_total := rint (premium_total * 100)
  let raw := weights.map (· * (cents_total : ℚ))
  let flo := raw.map Int.floor
  let rema := List.zipWith (fun r f => r - (f : ℚ)) raw flo
  let remain := cents_total - flo.sum
  let order := sortDescBy (fun i => rema.getD i 0) (List.range n)
  let chosen := order.take remain.toNat
  (List.range n).map (fun i => flo.getD i 0 + if i ∈ chosen then 1 else 0)

def allocate_cents (premium_total : ℚ) (tivs : List ℚ) : List ℤ :=
  if tivs.length = 0 then []
  else if premium_total ≤ 0 then List.replicate tivs.length 0
  else allocMain premium_total tivs

/-- Python `dict.get(k, d)` on an association list. -/
def lookupD (m : List (String × ℚ)) (k : String) (d : ℚ) : ℚ :=
  match m.find? (fun kv => kv.1 = k) with
  | some kv => kv.2
  | none => d

/-- `allocate_cents_for_coverage(premium_total, tiv_by_loc_map, loc_list)`:
weights are read off the map (missing locations weigh 0), cents are
computed by `allocate_cents`, and the result maps each location to its
dollar amount. -/
def allocate_cents_for_coverage (premium_total : ℚ) (tiv_by_loc_map : List (String × ℚ))
    (loc_list : List String) : List (String × ℚ) :=
  let tivs := loc_list.map (fun l => lookupD tiv_by_loc_map l 0)
  loc_list.zip (List.map (fun z : ℤ => (z : ℚ) / 100) (allocate_cents premium_total tivs))

/-! ### Generic list-sum helpers -/

theorem getD_map_range {M : Type} (f : ℕ → M) (n i : ℕ) (hi : i < n) (d : M) :
    ((List.range n).map f).getD i d = f i := by
  rw [List.getD_eq_getElem ((List.range n).map f) d (by simpa using hi)]
  simp

theorem getD_map_elem {α β : Type} (l : List α) (f : α → β) (i : ℕ) (hi : i < l.length)
    (d : β) (d0 : α) : (l.map f).getD i d = f (l.getD i d0) := by
  rw [List.getD_eq_getElem _ _ (by simpa using hi), List.getElem_map,
    List.getD_eq_getElem _ _ hi]

theorem sum_range_getD {M : Type} [AddCommMonoid M] (l : List M) :
    ((List.range l.length).map (fun i => l.getD i 0)).sum = l.sum := by
  induction l with
  | nil => simp
  | cons x xs ih =>
    rw [List.length_cons, List.range_succ_eq_map]
    simp only [List.map_cons, List.map_map, List.sum_cons]
    have h1 : ((List.range xs.length).map ((fun i => (x :: xs).getD i 0) ∘ (· + 1))) =
        (List.range xs.length).map (fun i => xs.getD i 0) := by
      refine List.map_congr_left ?_
      intro i _
      simp [List.getD]
    rw [h1, ih]
    simp [List.getD]

theorem sum_map_add_distrib {α M : Type} [AddCommMonoid M] (l : List α) (f g : α → M) :
    (l.map (fun x => f x + g x)).sum = (l.map f).sum + (l.map g).sum := by
  induction l with
  | nil => simp
  | cons x xs ih =>
    simp only [List.map_cons, List.sum_cons, ih]
    abel

theorem sum_map_update (l : List α) (hl : l.Nodup) (x : α) (hx : x ∈ l) (f g : α → ℤ)
    (hfg : ∀ y ∈ l, y ≠ x → f y = g y) :
    (l.map f).sum = (l.map g).sum + (f x - g x) := by
  induction l with
  | nil => cases hx
  | cons a as ih =>
    rcases List.mem_cons.mp hx with h | h
    · subst h
      simp only [List.map_cons, List.sum_cons]
      have : (as.map f) = as.map g := by
        refine List.map_congr_left ?_
        intro y hy
        refine hfg y (List.mem_cons_of_mem _ hy) ?_
        intro hyx
        subst hyx
        exact (List.nodup_cons.mp hl).1 hy
      rw [this]; ring
    · have ha : a ≠ x := by
        intro h1
        subst h1
        exact (List.nodup_cons.mp hl).1 h
      simp only [List.map_cons, List.sum_cons]
      rw [hfg a (List.mem_cons_self _ _) ha,
        ih (List.nodup_cons.mp hl).2 h (fun y hy => hfg y (List.mem_cons_of_mem _ hy))]
      ring

theorem sum_indicator_nodup (n : ℕ) (c : List ℕ) (hc : c.Nodup) (hlt : ∀ i ∈ c, i < n) :
    ((List.range n).map (fun i => if i ∈ c then (1:ℤ) else 0)).sum = c.length := by
  induction c with
  | nil => simp
  | cons a as ih =>
    have ha : a ∈ List.range n := List.mem_range.mpr (hlt a (List.mem_cons_self _ _))
    have hna : a ∉ as := (List.nodup_cons.mp hc).1
    have := sum_map_update (List.range n) (List.nodup_range n) a ha
      (fun i => if i ∈ a :: as then (1:ℤ) else 0) (fun i => if i ∈ as then (1:ℤ) else 0)
      (by
        intro y _ hy
        have hmem : (y ∈ a :: as) ↔ (y ∈ as) := by
          simp [List.mem_cons, hy]
        simp only [hmem])
    rw [this, ih (List.nodup_cons.mp hc).2 (fun i hi => hlt i (List.mem_cons_of_mem _ hi))]
    simp [hna]

theorem sum_floor_le (raw : List ℚ) : (((raw.map Int.floor).sum : ℤ) : ℚ) ≤ raw.sum := by
  induction raw with
  | nil => simp
  | cons x xs ih =>
    simp only [List.map_cons, List.sum_cons]
    rw [Int.cast_add]
    exact add_le_add (Int.floor_le x) ih

theorem sum_lt_floor_add_length (raw : List ℚ) (hne : raw ≠ []) :
    raw.sum < (((raw.map Int.floor).sum : ℤ) : ℚ) + raw.length := by
  induction raw with
  | nil => cases hne rfl
  | cons x xs ih =>
    simp only [List.map_cons, List.sum_cons, List.length_cons]
    rw [Int.cast_add]
    have h2 := Int.lt_floor_add_one x
    rcases List.eq_nil_or_concat' xs with h | _
    · subst h
      simp only [List.map_nil, List.sum_nil, Int.cast_zero, List.length_nil]
      push_cast
      linarith
    · have hxs : xs ≠ [] := by rintro rfl; simp_all
      have h1 := ih hxs
      push_cast
      push_cast at h1
      linarith

theorem sum_map_div (l : List ℚ) (c : ℚ) : (l.map (· / c)).sum = l.sum / c := by
  induction l with
  | nil => simp
  | cons x xs ih =>
    simp only [List.map_cons, List.sum_cons, ih]
    rw [add_div]

/-! ### Facts about the weight normalization -/

theorem allocWeights_length (tivs : List ℚ) : (allocWeights tivs).length = tivs.length := by
  unfold allocWeights
  split <;> simp

theorem allocWeights_sum (tivs : List ℚ) (hn : tivs.length ≠ 0) : (allocWeights tivs).sum = 1 := by
  unfold allocWeights
  split
  · rw [List.sum_replicate, nsmul_eq_mul]
    have : (tivs.length : ℚ) ≠ 0 := Nat.cast_ne_zero.mpr hn
    field_simp
  · rw [sum_map_div]
    have hT : tivs.sum ≠ 0 := by
      rename_i h
      intro h0
      exact h (le_of_eq h0)
    field_simp

theorem allocWeights_nonneg (tivs : List ℚ) (hw : ∀ w ∈ tivs, 0 ≤ w) :
    ∀ w ∈ allocWeights tivs, 0 ≤ w := by
  unfold allocWeights
  split
  · intro w hwm
    rw [List.eq_of_mem_replicate hwm]
    positivity
  · rename_i h
    intro w hwm
    rcases List.mem_map.mp hwm with ⟨x, hx, rfl⟩
    have hT : 0 < tivs.sum := lt_of_not_le h
    exact div_nonneg (hw x hx) hT.le

theorem allocWeights_getD (tivs : List ℚ) (hT : 0 < tivs.sum) (i : ℕ) (hi : i < tivs.length) :
    (allocWeights tivs).getD i 0 = tivs.getD i 0 / tivs.sum := by
  unfold allocWeights
  rw [if_neg (not_le.mpr hT)]
  rw [List.getD_eq_getElem _ _ (by simpa using hi), List.getElem_map,
    List.getD_eq_getElem _ _ hi]

/-! ### Facts about the main allocation branch -/

theorem allocMain_spec (t : ℚ) (tivs : List ℚ) (hn : tivs.length ≠ 0) (ht : 0 < t)
    (hw : ∀ w ∈ tivs, 0 ≤ w) :
    (allocMain t tivs).length = tivs.length
    ∧ (allocMain t tivs).sum = rint (t * 100)
    ∧ (∀ c ∈ allocMain t tivs, 0 ≤ c)
    ∧ (0 < tivs.sum → ∀ i < tivs.length,
        (allocMain t tivs).getD i 0 = ⌊tivs.getD i 0 * (rint (t * 100) : ℚ) / tivs.sum⌋
        ∨ (allocMain t tivs).getD i 0 = ⌊tivs.getD i 0 * (rint (t * 100) : ℚ) / tivs.sum⌋ + 1) := by
  simp only [allocMain]
  set W := allocWeights tivs with hW
  set C := rint (t * 100) with hC
  set raw := W.map (· * (C : ℚ)) with hraw
  set flo := raw.map Int.floor with hflo
  set rema := List.zipWith (fun r f => r - (f : ℚ)) raw flo with hrema
  set remain := C - flo.sum with hremain
  set order := sortDescBy (fun i => rema.getD i 0) (List.range tivs.length) with horder
  set chosen := order.take remain.toNat with hchosen
  have hWlen : W.length = tivs.length := allocWeights_length tivs
  have hWsum : W.sum = 1 := allocWeights_sum tivs hn
  have hWnn : ∀ w ∈ W, 0 ≤ w := allocWeights_nonneg tivs hw
  have hCnn : (0 : ℤ) ≤ C := rint_nonneg _ (by positivity)
  have hrawlen : raw.length = tivs.length := by rw [hraw, List.length_map, hWlen]
  have hrawnn : ∀ r ∈ raw, 0 ≤ r := by
    intro r hr
    rcases List.mem_map.mp hr with ⟨w, hwm, rfl⟩
    exact mul_nonneg (hWnn w hwm) (by exact_mod_cast hCnn)
  have hrawsum : raw.sum = (C : ℚ) := by
    rw [hraw]
    have : (W.map (· * (C : ℚ))).sum = (W.map id).sum * (C : ℚ) := by
      simpa using List.sum_map_mul_right W id (C : ℚ)
    simpa [hWsum] using this
  have hflolen : flo.length = tivs.length := by rw [hflo, List.length_map, hrawlen]
  have hflonn : ∀ z ∈ flo, 0 ≤ z := by
    intro z hz
    rcases List.mem_map.mp hz with ⟨r, hr, rfl⟩
    exact Int.floor_nonneg.mpr (hrawnn r hr)
  have hfloleC : flo.sum ≤ C := by
    have h1 := sum_floor_le raw
    rw [hrawsum] at h1
    exact_mod_cast h1
  have hremnn : 0 ≤ remain := by omega
  have hremlt : remain < tivs.length := by
    have hne : raw ≠ [] := by
      intro h
      rw [h] at hrawlen
      exact hn (by simpa using hrawlen.symm)
    have h1 := sum_lt_floor_add_length raw hne
    rw [hrawsum, hrawlen] at h1
    have h2 : C < flo.sum + (tivs.length : ℤ) := by exact_mod_cast h1
    omega
  have hordperm : List.Perm order (List.range tivs.length) := sortDescBy_perm _ _
  have hordlen : order.length = tivs.length := by
    rw [hordperm.length_eq, List.length_range]
  have hordnodup : order.Nodup := hordperm.symm.nodup (List.nodup_range _)
  have hchnodup : chosen.Nodup := (List.take_sublist _ _).nodup hordnodup
  have hchlt : ∀ i ∈ chosen, i < tivs.length := by
    intro i hi
    have h1 : i ∈ order := List.mem_of_mem_take hi
    exact List.mem_range.mp (hordperm.mem_iff.mp h1)
  have hchlen : chosen.length = remain.toNat := by
    rw [hchosen, List.length_take, hordlen]
    exact min_eq_left (by omega)
  have hglen : ((List.range tivs.length).map
      (fun i => flo.getD i 0 + if i ∈ chosen then (1:ℤ) else 0)).length = tivs.length := by
    simp
  refine ⟨hglen, ?_, ?_, ?_⟩
  · rw [sum_map_add_distrib]
    have h1 : ((List.range tivs.length).map (fun i => flo.getD i 0)).sum = flo.sum := by
      rw [← hflolen]
      exact sum_range_getD flo
    have h2 := sum_indicator_nodup tivs.length chosen hchnodup hchlt
    rw [h1, h2, hchlen]
    omega
  · intro c hc
    rcases List.mem_map.mp hc with ⟨i, _, rfl⟩
    have h1 : 0 ≤ flo.getD i 0 := by
      rcases lt_or_ge i flo.length with h | h
      · rw [List.getD_eq_getElem _ _ h]
        exact hflonn _ (List.getElem_mem h)
      · rw [List.getD_eq_default _ _ h]
    split <;> omega
  · intro hT i hi
    rw [getD_map_range _ _ _ hi]
    have h1 : flo.getD i 0 = ⌊tivs.getD i 0 * (C : ℚ) / tivs.sum⌋ := by
      rw [hflo, getD_map_elem raw Int.floor i (by rw [hrawlen]; exact hi) 0 0]
      congr 1
      rw [hraw, getD_map_elem W _ i (by rw [hWlen]; exact hi) 0 0,
        allocWeights_getD tivs hT i hi, div_mul_eq_mul_div]
    by_cases hm : i ∈ chosen
    · right; rw [if_pos hm, h1]
    · left; rw [if_neg hm, h1, add_zero]

theorem allocMain_length (t : ℚ) (tivs : List ℚ) : (allocMain t tivs).length = tivs.length := by
  simp [allocMain]

theorem allocate_cents_length (t : ℚ) (tivs : List ℚ) :
    (allocate_cents t tivs).length = tivs.length := by
  unfold allocate_cents
  split
  · rename_i h; simp [h]
  · split
    · simp
    · exact allocMain_length t tivs

theorem allocate_for_coverage_snd (t : ℚ) (m : List (String × ℚ)) (locs : List String) :
    List.map Prod.snd (allocate_cents_for_coverage t m locs)
      = List.map (fun z : ℤ => (z : ℚ) / 100) (allocate_cents t (locs.map (fun l => lookupD m l 0))) := by
  unfold allocate_cents_for_coverage
  apply List.map_snd_zip
  simp [allocate_cents_length]

/-- C2 counterexample: with total 0.015 and weights [15,2,2,2,2,2] the
rounded cent total is round(1.5) = 2 (ties to even) and entity 0
receives 2 cents, but its exact proportional cent share is
15*1.5/25 = 0.9, whose floor and floor+1 are 0 and 1 — so the claim's
"floor or floor+1 of w[i]*total*100/sum(w)" fails as stated. -/
theorem c2_counterexample :
    0 < (3/200 : ℚ)
    ∧ (∀ w ∈ [(15:ℚ), 2, 2, 2, 2, 2], 0 ≤ w)
    ∧ (allocate_cents (3/200) [15, 2, 2, 2, 2, 2]).getD 0 0 = 2
    ∧ ⌊(15:ℚ) * ((3/200) * 100) / ([(15:ℚ), 2, 2, 2, 2, 2]).sum⌋ = 0
    ∧ ¬((allocate_cents (3/200) [15, 2, 2, 2, 2, 2]).getD 0 0
          = ⌊(15:ℚ) * ((3/200) * 100) / ([(15:ℚ), 2, 2, 2, 2, 2]).sum⌋
        ∨ (allocate_cents (3/200) [15, 2, 2, 2, 2, 2]).getD 0 0
          = ⌊(15:ℚ) * ((3/200) * 100) / ([(15:ℚ), 2, 2, 2, 2, 2]).sum⌋ + 1) := by
  refine ⟨by norm_num, by norm_num, ?_, by norm_num, ?_⟩ <;>
    norm_num [allocate_cents, allocMain, allocWeights, rint, sortDescBy, insertDescBy,
      List.range_succ]

/-- C2 (amended): for every total ≥ 0 and n ≥ 1 non-negative weights,
`allocate_cents_for_coverage` returns one amount per entity, the cent
values sum exactly to round(total*100), and no entry is negative; when
total > 0 and sum(w) > 0, each entity's cent value is the floor or
floor+1 of its proportional share of the rounded cent total,
w[i]*round(total*100)/sum(w) (the counterexample shows this fails for
the unrounded share w[i]*total*100/sum(w) when total*100 is not an
integer).  The final conjunct relates the labelled dollar wrapper to
the cent core. -/
theorem c2_exact_cents_conservation (t : ℚ) (tivs : List ℚ) (hn : 1 ≤ tivs.length)
    (ht : 0 ≤ t) (hw : ∀ w ∈ tivs, 0 ≤ w) :
    (allocate_cents t tivs).length = tivs.length
    ∧ (allocate_cents t tivs).sum = rint (t * 100)
    ∧ (∀ c ∈ allocate_cents t tivs, 0 ≤ c)
    ∧ (0 < t → 0 < tivs.sum → ∀ i < tivs.length,
        (allocate_cents t tivs).getD i 0 = ⌊tivs.getD i 0 * (rint (t * 100) : ℚ) / tivs.sum⌋
        ∨ (allocate_cents t tivs).getD i 0
            = ⌊tivs.getD i 0 * (rint (t * 100) : ℚ) / tivs.sum⌋ + 1)
    ∧ (∀ (m : List (String × ℚ)) (locs : List String),
        List.map Prod.snd (allocate_cents_for_coverage t m locs)
          = List.map (fun z : ℤ => (z : ℚ) / 100)
              (allocate_cents t (locs.map (fun l => lookupD m l 0)))) := by
  have hn0 : tivs.length ≠ 0 := by omega
  by_cases ht0 : t ≤ 0
  · have ht00 : t = 0 := le_antisymm ht0 ht
    subst ht00
    have he : allocate_cents 0 tivs = List.replicate tivs.length 0 := by
      unfold allocate_cents
      rw [if_neg hn0, if_pos le_rfl]
    have hr0 : rint ((0:ℚ) * 100) = 0 := by norm_num [rint]
    rw [he, hr0]
    refine ⟨by simp, by simp, ?_, ?_, fun m locs => allocate_for_coverage_snd 0 m locs⟩
    · intro c hc
      rw [List.eq_of_mem_replicate hc]
    · intro hpos
      exact absurd hpos (lt_irrefl 0)
  · have htpos : 0 < t := lt_of_not_le ht0
    have he : allocate_cents t tivs = allocMain t tivs := by
      unfold allocate_cents
      rw [if_neg hn0, if_neg ht0]
    obtain ⟨h1, h2, h3, h4⟩ := allocMain_spec t tivs hn0 htpos hw
    rw [he]
    exact ⟨h1, h2, h3, fun _ => h4, fun m locs => allocate_for_coverage_snd t m locs⟩

/-- C2 witness: the amended theorem at total 10 and weights [1,1,1];
the resulting split is [334, 333, 333]. -/
theorem c2_exact_cents_conservation_witness :
    (1 ≤ ([(1:ℚ), 1, 1]).length ∧ 0 ≤ (10:ℚ) ∧ (∀ w ∈ [(1:ℚ), 1, 1], 0 ≤ w)
      ∧ ((allocate_cents 10 [1, 1, 1]).length = ([(1:ℚ), 1, 1]).length
        ∧ (allocate_cents 10 [1, 1, 1]).sum = rint (10 * 100)
        ∧ (∀ c ∈ allocate_cents 10 [1, 1, 1], 0 ≤ c)
        ∧ (0 < (10:ℚ) → 0 < ([(1:ℚ), 1, 1]).sum → ∀ i < ([(1:ℚ), 1, 1]).length,
            (allocate_cents 10 [1, 1, 1]).getD i 0
              = ⌊([(1:ℚ), 1, 1]).getD i 0 * (rint ((10:ℚ) * 100) : ℚ) / ([(1:ℚ), 1, 1]).sum⌋
            ∨ (allocate_cents 10 [1, 1, 1]).getD i 0
              = ⌊([(1:ℚ), 1, 1]).getD i 0 * (rint ((10:ℚ) * 100) : ℚ) / ([(1:ℚ), 1, 1]).sum⌋ + 1)
        ∧ (∀ (m : List (String × ℚ)) (locs : List String),
            List.map Prod.snd (allocate_cents_for_coverage 10 m locs)
              = List.map (fun z : ℤ => (z : ℚ) / 100)
                  (allocate_cents 10 (locs.map (fun l => lookupD m l 0))))))
    ∧ allocate_cents 10 [1, 1, 1] = [334, 333, 333] :=
  ⟨⟨by norm_num, by norm_num, by norm_num,
      c2_exact_cents_conservation 10 [1, 1, 1] (by norm_num) (by norm_num) (by norm_num)⟩,
    by norm_num [allocate_cents, allocMain, allocWeights, rint, sortDescBy, insertDescBy,
      List.range_succ]⟩

/-- C6: with all-zero weights `allocate_cents_for_coverage` substitutes
the uniform 1/n distribution — allocating with n zero weights equals
allocating with n equal positive weights — and in particular 9.00 over
three zero-weight entities yields 300 cents (3 dollars) each. -/
theorem c6_zero_weight_uniform_fallback :
    (∀ (t : ℚ) (n : ℕ),
      allocate_cents t (List.replicate n 0) = allocate_cents t (List.replicate n 1))
    ∧ allocate_cents 9 [0, 0, 0] = [300, 300, 300]
    ∧ List.map Prod.snd (allocate_cents_for_coverage 9 [] ["A", "B", "C"]) = [3, 3, 3] := by
  have hW : ∀ n : ℕ, allocWeights (List.replicate n (0:ℚ)) = allocWeights (List.replicate n 1) := by
    intro n
    rcases Nat.eq_zero_or_pos n with h | h
    · subst h; rfl
    · unfold allocWeights
      rw [if_pos (by simp), if_neg (by
        simp only [List.sum_replicate, nsmul_eq_mul, mul_one]
        exact not_le.mpr (by exact_mod_cast h)),
        List.map_replicate]
      simp [List.sum_replicate]
  have hM : ∀ (t : ℚ) (n : ℕ),
      allocMain t (List.replicate n 0) = allocMain t (List.replicate n 1) := by
    intro t n
    simp only [allocMain, hW, List.length_replicate]
  refine ⟨?_, ?_, ?_⟩
  · intro t n
    unfold allocate_cents
    simp only [List.length_replicate]
    split
    · rfl
    · split
      · rfl
      · exact hM t n
  · norm_num [allocate_cents, allocMain, allocWeights, rint, sortDescBy, insertDescBy,
      List.range_succ]
  · norm_num [allocate_cents_for_coverage, lookupD, allocate_cents, allocMain, allocWeights,
      rint, sortDescBy, insertDescBy, List.range_succ]

/-! ## IPF (Iterative Proportional Fitting), ras_module.py lines 90-111

Matrices are lists of rows of rationals.  Row rescaling multiplies row
i by rT[i]/rs[i] with zero row sums replaced by 1; column rescaling
multiplies column j by cT[j]/cs[j] with the same guard.  The loop runs
at most `max_iter` times and stops early when both margins are within
the `np.allclose` tolerance (absolute tolerance `tol`, numpy's default
relative tolerance 1e-5). -/

def rowSumsQ (X : List (List ℚ)) : List ℚ := X.map List.sum

def colSumsQ (X : List (List ℚ)) (nC : ℕ) : List ℚ :=
  (List.range nC).map (fun j => (X.map (fun r => r.getD j 0)).sum)

def rowScale (rt : List ℚ) (X : List (List ℚ)) : List (List ℚ) :=
  List.zipWith (fun t row =>
    let s := if row.sum = 0 then 1 else row.sum
    row.map (fun x => x * (t / s))) rt X

def colScale (ct : List ℚ) (X : List (List ℚ)) : List (List ℚ) :=
  let factors := List.zipWith (fun c s => c / (if s = 0 then 1 else s)) ct (colSumsQ X ct.length)
  X.map (fun row => List.zipWith (fun x f => x * f) row factors)

/-- One rescaling iteration: rows then columns (loop body, lines 105-108;
also the pre-loop scaling, lines 100-103). -/
def ipfStep (rt ct : List ℚ) (X : List (List ℚ)) : List (List ℚ) :=
  colScale ct (rowScale rt X)

/-- Default seed (lines 95-98): outer product of positivity indicators,
falling back to all ones when that is all zero. -/
def indicatorSeed (rt ct : List ℚ) : List (List ℚ) :=
  rt.map (fun r => ct.map (fun c => if 0 < r ∧ 0 < c then (1:ℚ) else 0))

def matSumQ (X : List (List ℚ)) : ℚ := (X.map List.sum).sum

def defaultSeed (rt ct : List ℚ) : List (List ℚ) :=
  let s := indicatorSeed rt ct
  if matSumQ s = 0 then List.replicate rt.length (List.replicate ct.length 1) else s

def ipfSeed (rt ct : List ℚ) (seed : Option (List (List ℚ))) : List (List ℚ) :=
  match seed with
  | some s => s
  | none => defaultSeed rt ct

/-- Model of `np.allclose(a, b, atol=tol)` with numpy's default
relative tolerance 1e-5. -/
def allcloseB (a b : List ℚ) (atol : ℚ) : Bool :=
  (List.zip a b).all (fun xy => decide (|xy.1 - xy.2| ≤ atol + |xy.2| / 100000))

def ipfConverged (rt ct : List ℚ) (tol : ℚ) (X : List (List ℚ)) : Bool :=
  allcloseB (rowSumsQ X) rt tol && allcloseB (colSumsQ X ct.length) ct tol

/-- The bounded iteration (lines 104-110), also counting the number of
rescaling iterations actually performed. -/
def ipfLoop (rt ct : List ℚ) (tol : ℚ) : ℕ → List (List ℚ) → List (List ℚ) × ℕ
  | 0, X => (X, 0)
  | k + 1, X =>
    let X' := ipfStep rt ct X
    if ipfConverged rt ct tol X' then (X', 1)
    else
      let r := ipfLoop rt ct tol k X'
      (r.1, r.2 + 1)

/-- `ipf(row_targets, col_targets, seed, max_iter, tol)`: the returned
matrix together with the number of loop iterations performed. -/
def ipf (rt ct : List ℚ) (seed : Option (List (List ℚ))) (maxIter : ℕ) (tol : ℚ) :
    List (List ℚ) × ℕ :=
  ipfLoop rt ct tol maxIter (ipfStep rt ct (ipfSeed rt ct seed))

/-- `ipf` with the source defaults `max_iter=5000`, `tol=1e-10`. -/
def ipfDefault (rt ct : List ℚ) (seed : Option (List (List ℚ))) : List (List ℚ) × ℕ :=
  ipf rt ct seed 5000 (1 / 10000000000)

theorem ipfLoop_spec (rt ct : List ℚ) (tol : ℚ) (k : ℕ) (X : List (List ℚ)) :
    (ipfLoop rt ct tol k X).2 ≤ k
    ∧ (ipfLoop rt ct tol k X).1 = (ipfStep rt ct)^[(ipfLoop rt ct tol k X).2] X := by
  induction k generalizing X with
  | zero => simp [ipfLoop]
  | succ k ih =>
    simp only [ipfLoop]
    split
    · simp
    · obtain ⟨h1, h2⟩ := ih (ipfStep rt ct X)
      constructor
      · simpa using h1
      · simpa [Function.iterate_succ_apply] using h2

/-- C3: `ipf` always returns its last iterate: for every pair of target
vectors, every seed, every cap and tolerance, the loop body runs at most
`maxIter` times (at most 5000 with the source defaults) and the matrix
returned is exactly the k-th rescaling iterate of the initial scaled
seed, where k is the number of iterations performed — no error path
exists, whether or not the tolerance test ever succeeded. -/
theorem c3_ipf_iteration_cap (rt ct : List ℚ) (seed : Option (List (List ℚ)))
    (maxIter : ℕ) (tol : ℚ) :
    (ipf rt ct seed maxIter tol).2 ≤ maxIter
    ∧ (ipf rt ct seed maxIter tol).1
        = (ipfStep rt ct)^[(ipf rt ct seed maxIter tol).2] (ipfStep rt ct (ipfSeed rt ct seed))
    ∧ (ipfDefault rt ct seed).2 ≤ 5000 := by
  obtain ⟨h1, h2⟩ := ipfLoop_spec rt ct tol maxIter (ipfStep rt ct (ipfSeed rt ct seed))
  exact ⟨h1, h2, (ipfLoop_spec rt ct _ 5000 _).1⟩

/-! ### Non-negativity preservation (C9) -/

def matNonneg (M : List (List ℚ)) : Prop := ∀ r ∈ M, ∀ x ∈ r, 0 ≤ x

theorem mem_zipWith {α β γ : Type} (f : α → β → γ) (l₁ : List α) (l₂ : List β) :
    ∀ x ∈ List.zipWith f l₁ l₂, ∃ a ∈ l₁, ∃ b ∈ l₂, x = f a b := by
  induction l₁ generalizing l₂ with
  | nil => simp
  | cons a as ih =>
    cases l₂ with
    | nil => simp
    | cons b bs =>
      intro x hx
      rcases List.mem_cons.mp hx with h | h
      · exact ⟨a, List.mem_cons_self _ _, b, List.mem_cons_self _ _, h⟩
      · rcases ih bs x h with ⟨a1, ha1, b1, hb1, hx1⟩
        exact ⟨a1, List.mem_cons_of_mem _ ha1, b1, List.mem_cons_of_mem _ hb1, hx1⟩

theorem getD_nonneg (l : List ℚ) (hl : ∀ x ∈ l, 0 ≤ x) (j : ℕ) : 0 ≤ l.getD j 0 := by
  rcases lt_or_ge j l.length with h | h
  · rw [List.getD_eq_getElem _ _ h]
    exact hl _ (List.getElem_mem h)
  · rw [List.getD_eq_default _ _ h]

theorem rowScale_nonneg (rt : List ℚ) (X : List (List ℚ)) (hrt : ∀ x ∈ rt, 0 ≤ x)
    (hX : matNonneg X) : matNonneg (rowScale rt X) := by
  intro r hr
  rcases mem_zipWith _ _ _ r hr with ⟨t, ht, row, hrow, rfl⟩
  intro x hx
  rcases List.mem_map.mp hx with ⟨y, hy, rfl⟩
  have hrownn := hX row hrow
  have hs : (0:ℚ) ≤ (if row.sum = 0 then 1 else row.sum) := by
    split
    · norm_num
    · exact List.sum_nonneg hrownn
  exact mul_nonneg (hrownn y hy) (div_nonneg (hrt t ht) hs)

theorem colScale_nonneg (ct : List ℚ) (X : List (List ℚ)) (hct : ∀ x ∈ ct, 0 ≤ x)
    (hX : matNonneg X) : matNonneg (colScale ct X) := by
  intro r hr
  rcases List.mem_map.mp hr with ⟨row, hrow, rfl⟩
  intro x hx
  rcases mem_zipWith _ _ _ x hx with ⟨y, hy, f, hf, rfl⟩
  rcases mem_zipWith _ _ _ f hf with ⟨c, hc, s, hs, rfl⟩
  have hsnn : (0:ℚ) ≤ s := by
    rcases List.mem_map.mp hs with ⟨j, _, rfl⟩
    refine List.sum_nonneg ?_
    intro z hz
    rcases List.mem_map.mp hz with ⟨row1, hrow1, rfl⟩
    exact getD_nonneg _ (hX row1 hrow1) _
  have hdiv : (0:ℚ) ≤ c / (if s = 0 then 1 else s) := by
    refine div_nonneg (hct c hc) ?_
    split
    · norm_num
    · exact hsnn
  exact mul_nonneg (hX row hrow y hy) hdiv

theorem ipfStep_nonneg (rt ct : List ℚ) (X : List (List ℚ)) (hrt : ∀ x ∈ rt, 0 ≤ x)
    (hct : ∀ x ∈ ct, 0 ≤ x) (hX : matNonneg X) : matNonneg (ipfStep rt ct X) :=
  colScale_nonneg ct _ hct (rowScale_nonneg rt X hrt hX)

theorem ipfSeed_nonneg (rt ct : List ℚ) (seed : Option (List (List ℚ)))
    (hseed : ∀ M, seed = some M → matNonneg M) : matNonneg (ipfSeed rt ct seed) := by
  cases seed with
  | some s => exact hseed s rfl
  | none =>
    simp only [ipfSeed, defaultSeed]
    split
    · intro r hr
      intro x hx
      rw [List.eq_of_mem_replicate hr] at hx
      rw [List.eq_of_mem_replicate hx]
      norm_num
    · intro r hr
      rcases List.mem_map.mp hr with ⟨t, _, rfl⟩
      intro x hx
      rcases List.mem_map.mp hx with ⟨c, _, rfl⟩
      split
      · norm_num
      · exact le_refl 0

theorem ipfLoop_nonneg (rt ct : List ℚ) (tol : ℚ) (k : ℕ) (X : List (List ℚ))
    (hrt : ∀ x ∈ rt, 0 ≤ x) (hct : ∀ x ∈ ct, 0 ≤ x) (hX : matNonneg X) :
    matNonneg (ipfLoop rt ct tol k X).1 := by
  induction k generalizing X with
  | zero => simpa [ipfLoop] using hX
  | succ k ih =>
    simp only [ipfLoop]
    split
    · exact ipfStep_nonneg rt ct X hrt hct hX
    · exact ih _ (ipfStep_nonneg rt ct X hrt hct hX)

/-- C9: if the row targets, the column targets and the seed (including
the default seed built when none is supplied) are element-wise
non-negative, every entry of the matrix returned by `ipf` is
non-negative — each row and column rescaling step preserves
non-negativity. -/
theorem c9_ipf_nonneg (rt ct : List ℚ) (seed : Option (List (List ℚ))) (maxIter : ℕ) (tol : ℚ)
    (hrt : ∀ x ∈ rt, 0 ≤ x) (hct : ∀ x ∈ ct, 0 ≤ x)
    (hseed : ∀ M, seed = some M → matNonneg M) :
    ∀ i j : ℕ, 0 ≤ ((ipf rt ct seed maxIter tol).1.getD i []).getD j 0 := by
  intro i j
  have h1 : matNonneg (ipf rt ct seed maxIter tol).1 := by
    refine ipfLoop_nonneg rt ct tol maxIter _ hrt hct ?_
    exact ipfStep_nonneg rt ct _ hrt hct (ipfSeed_nonneg rt ct seed hseed)
  have h2 : ∀ x ∈ (ipf rt ct seed maxIter tol).1.getD i [], 0 ≤ x := by
    rcases lt_or_ge i (ipf rt ct seed maxIter tol).1.length with h | h
    · rw [List.getD_eq_getElem _ _ h]
      exact h1 _ (List.getElem_mem h)
    · rw [List.getD_eq_default _ _ h]
      simp
  exact getD_nonneg _ h2 j

/-- C9 witness: the theorem at the feasible concrete targets of the
spec's convergence example, with the default seed. -/
theorem c9_ipf_nonneg_witness :
    ((∀ x ∈ [(50:ℚ), 50], 0 ≤ x) ∧ (∀ x ∈ [(60:ℚ), 40], 0 ≤ x)
      ∧ (∀ M, (none : Option (List (List ℚ))) = some M → matNonneg M))
    ∧ ∀ i j : ℕ,
        0 ≤ (((ipf [(50:ℚ), 50] [(60:ℚ), 40] none 5000 (1 / 10000000000)).1.getD i []).getD j 0) :=
  ⟨⟨by norm_num, by norm_num, fun M h => nomatch h⟩,
    c9_ipf_nonneg [(50:ℚ), 50] [(60:ℚ), 40] none 5000 (1 / 10000000000)
      (by norm_num) (by norm_num) (fun M h => nomatch h)⟩

/-! ## Exact two-decimal rounding (ras_module.py lines 113-131)

`round_matrix_exact_cents` floors the matrix in cents space, computes
per-row and per-column integer cent deficits against the rounded cent
targets, and walks all cells once in order of decreasing fractional
remainder, granting each visited cell `min(row_def[i], col_def[j])`
cents when both deficits are still positive; the walk stops early when
both deficit totals are zero.  The walk state is `RState`; the early
`break` is modelled by the `done` flag, set after each cell exactly
when the loop's break condition holds. -/

def getZ (m : List (List ℤ)) (i j : ℕ) : ℤ := (m.getD i []).getD j 0

def setZ (m : List (List ℤ)) (i j : ℕ) (v : ℤ) : List (List ℤ) :=
  m.set i ((m.getD i []).set j v)

/-- Rounded cent targets: `np.rint(np.asarray(targets) * 100)` (lines 114-115). -/
def centTargets (ts : List ℚ) : List ℤ := ts.map (fun t => rint (t * 100))

/-- Provisional cents matrix: element-wise `floor(X * 100)` (lines 116-117). -/
def floorCents (X : List (List ℚ)) : List (List ℤ) :=
  X.map (fun r => r.map (fun x => ⌊x * 100⌋))

/-- numpy's `X.shape[1]` for the row-list representation. -/
def matCols (X : List (List ℚ)) : ℕ := (X.headD []).length

/-- Fractional remainder of a cell in cents space (line 118). -/
def remFrac (X : List (List ℚ)) (p : ℕ × ℕ) : ℚ :=
  ((X.getD p.1 []).getD p.2 0) * 100 - (⌊((X.getD p.1 []).getD p.2 0) * 100⌋ : ℚ)

def rowSumsZ (m : List (List ℤ)) : List ℤ := m.map List.sum

def colSumZ (m : List (List ℤ)) (j : ℕ) : ℤ := (m.map (fun r => r.getD j 0)).sum

def colSumsZ (m : List (List ℤ)) (nC : ℕ) : List ℤ := (List.range nC).map (colSumZ m)

/-- Initial row deficits `rT_c - Xc.sum(axis=1)` (line 119). -/
def initRd (X : List (List ℚ)) (rt : List ℚ) : List ℤ :=
  List.zipWith (· - ·) (centTargets rt) (rowSumsZ (floorCents X))

/-- Initial column deficits `cT_c - Xc.sum(axis=0)` (line 120). -/
def initCd (X : List (List ℚ)) (ct : List ℚ) : List ℤ :=
  List.zipWith (· - ·) (centTargets ct) (colSumsZ (floorCents X) (matCols X))

/-- Row-major cell coordinates (line 121). -/
def allPairs (nR nC : ℕ) : List (ℕ × ℕ) :=
  (List.range nR).flatMap (fun i => (List.range nC).map (fun j => (i, j)))

/-- Cell order: all cells sorted by decreasing fractional remainder (line 122). -/
def roundIdx (X : List (List ℚ)) : List (ℕ × ℕ) :=
  sortDescBy (remFrac X) (allPairs X.length (matCols X))

structure RState where
  Xc : List (List ℤ)
  rd : List ℤ
  cd : List ℤ
  done : Bool

/-- One iteration of the correction loop (lines 123-130): grant
`min(row_def[i], col_def[j])` when both are positive, then evaluate the
break condition.  When `done` is already set the cell is skipped
(the Python loop has exited). -/
def rstep (s : RState) (p : ℕ × ℕ) : RState :=
  if s.done then s
  else
    let ri := s.rd.getD p.1 0
    let cj := s.cd.getD p.2 0
    if 0 < ri ∧ 0 < cj then
      let tk := min ri cj
      let Xc := setZ s.Xc p.1 p.2 (getZ s.Xc p.1 p.2 + tk)
      let rd := s.rd.set p.1 (ri - tk)
      let cd := s.cd.set p.2 (cj - tk)
      ⟨Xc, rd, cd, decide (rd.sum = 0 ∧ cd.sum = 0)⟩
    else
      ⟨s.Xc, s.rd, s.cd, decide (s.rd.sum = 0 ∧ s.cd.sum = 0)⟩

def roundLoop (idx : List (ℕ × ℕ)) (s : RState) : RState := idx.foldl rstep s

def roundState (X : List (List ℚ)) (rt ct : List ℚ) : RState :=
  roundLoop (roundIdx X) ⟨floorCents X, initRd X rt, initCd X ct, false⟩

/-- `round_matrix_exact_cents`: the corrected cents matrix converted
back to dollars (line 131). -/
def round_matrix_exact_cents (X : List (List ℚ)) (rt ct : List ℚ) : List (List ℚ) :=
  (roundState X rt ct).Xc.map (fun r => r.map (fun z : ℤ => (z : ℚ) / 100))

/-! ### getD/set lemmas -/

theorem getD_set_split {α : Type} (l : List α) (i k : ℕ) (v d : α) :
    (l.set i v).getD k d = if k = i ∧ i < l.length then v else l.getD k d := by
  rcases lt_or_ge k l.length with hk | hk
  · rw [List.getD_eq_getElem (l.set i v) d (by simpa using hk), List.getElem_set,
      List.getD_eq_getElem l d hk]
    by_cases hik : i = k
    · subst hik
      simp [hk]
    · rw [if_neg hik, if_neg (by
        rintro ⟨rfl, _⟩
        exact hik rfl)]
  · rw [List.getD_eq_default _ _ (by simpa using hk), List.getD_eq_default _ _ hk,
      if_neg (by rintro ⟨rfl, h2⟩; omega)]

theorem sum_set_int (l : List ℤ) (i : ℕ) (v : ℤ) (hi : i < l.length) :
    (l.set i v).sum = l.sum - l.getD i 0 + v := by
  induction l generalizing i with
  | nil => simp at hi
  | cons x xs ih =>
    cases i with
    | zero => simp [List.getD]; ring
    | succ i =>
      have hi2 : i < xs.length := by simpa using hi
      simp only [List.set_cons_succ, List.sum_cons, ih i hi2]
      simp [List.getD]
      ring

theorem getD_pos_lt_length (l : List ℤ) (i : ℕ) (h : 0 < l.getD i 0) : i < l.length := by
  by_contra hc
  rw [List.getD_eq_default _ _ (le_of_not_lt hc)] at h
  exact lt_irrefl 0 h

theorem getZ_setZ (m : List (List ℤ)) (a b : ℕ) (v : ℤ) (i j : ℕ) :
    getZ (setZ m a b v) i j
      = if i = a ∧ a < m.length ∧ j = b ∧ b < (m.getD a []).length then v
        else getZ m i j := by
  unfold getZ setZ
  rw [getD_set_split]
  by_cases h1 : i = a ∧ a < m.length
  · rw [if_pos h1, getD_set_split]
    obtain ⟨rfl, h1b⟩ := h1
    by_cases h2 : j = b ∧ b < (m.getD i []).length
    · rw [if_pos h2, if_pos ⟨rfl, h1b, h2⟩]
    · rw [if_neg h2, if_neg (by
        rintro ⟨-, -, h3, h4⟩
        exact h2 ⟨h3, h4⟩)]
  · rw [if_neg h1, if_neg (by
      rintro ⟨h2, h3, -, -⟩
      exact h1 ⟨h2, h3⟩)]

theorem setZ_row_length (m : List (List ℤ)) (a b : ℕ) (v : ℤ) (i : ℕ) :
    ((setZ m a b v).getD i []).length = (m.getD i []).length := by
  unfold setZ
  rw [getD_set_split]
  split
  · rename_i h
    obtain ⟨rfl, _⟩ := h
    simp
  · rfl

/-! ### Single-step lemmas -/

theorem rstep_of_done (s : RState) (p : ℕ × ℕ) (h : s.done = true) : rstep s p = s := by
  simp [rstep, h]

theorem rstep_Xc_length (s : RState) (p : ℕ × ℕ) : (rstep s p).Xc.length = s.Xc.length := by
  unfold rstep
  split
  · rfl
  · dsimp only
    split
    · simp [setZ]
    · rfl

theorem rstep_Xc_row_length (s : RState) (p : ℕ × ℕ) (i : ℕ) :
    ((rstep s p).Xc.getD i []).length = (s.Xc.getD i []).length := by
  unfold rstep
  split
  · rfl
  · dsimp only
    split
    · exact setZ_row_length _ _ _ _ _
    · rfl

theorem rstep_rd_length (s : RState) (p : ℕ × ℕ) : (rstep s p).rd.length = s.rd.length := by
  unfold rstep
  split
  · rfl
  · dsimp only
    split
    · simp
    · rfl

theorem rstep_cd_length (s : RState) (p : ℕ × ℕ) : (rstep s p).cd.length = s.cd.length := by
  unfold rstep
  split
  · rfl
  · dsimp only
    split
    · simp
    · rfl

theorem rstep_rd_le (s : RState) (p : ℕ × ℕ) (i : ℕ) :
    (rstep s p).rd.getD i 0 ≤ s.rd.getD i 0 := by
  unfold rstep
  split
  · exact le_refl _
  · dsimp only
    split
    · rename_i hcond
      show (s.rd.set p.1 (s.rd.getD p.1 0 - min (s.rd.getD p.1 0) (s.cd.getD p.2 0))).getD i 0
          ≤ s.rd.getD i 0
      rw [getD_set_split]
      split
      · rename_i h
        obtain ⟨rfl, -⟩ := h
        have := le_min_iff.mp (le_refl (min (s.rd.getD p.1 0) (s.cd.getD p.2 0)))
        omega
      · exact le_refl _
    · exact le_refl _

theorem rstep_cd_le (s : RState) (p : ℕ × ℕ) (j : ℕ) :
    (rstep s p).cd.getD j 0 ≤ s.cd.getD j 0 := by
  unfold rstep
  split
  · exact le_refl _
  · dsimp only
    split
    · rename_i hcond
      show (s.cd.set p.2 (s.cd.getD p.2 0 - min (s.rd.getD p.1 0) (s.cd.getD p.2 0))).getD j 0
          ≤ s.cd.getD j 0
      rw [getD_set_split]
      split
      · rename_i h
        obtain ⟨rfl, -⟩ := h
        have := le_min_iff.mp (le_refl (min (s.rd.getD p.1 0) (s.cd.getD p.2 0)))
        omega
      · exact le_refl _
    · exact le_refl _

theorem rstep_Xc_ge (s : RState) (p : ℕ × ℕ) (i j : ℕ) :
    getZ s.Xc i j ≤ getZ (rstep s p).Xc i j := by
  unfold rstep
  split
  · exact le_refl _
  · dsimp only
    split
    · rename_i hcond
      show getZ s.Xc i j
          ≤ getZ (setZ s.Xc p.1 p.2
              (getZ s.Xc p.1 p.2 + min (s.rd.getD p.1 0) (s.cd.getD p.2 0))) i j
      rw [getZ_setZ]
      split
      · rename_i h
        obtain ⟨rfl, -, rfl, -⟩ := h
        have h1 : (0:ℤ) < min (s.rd.getD p.1 0) (s.cd.getD p.2 0) := lt_min hcond.1 hcond.2
        omega
      · exact le_refl _
    · exact le_refl _

theorem rstep_sumdiff (s : RState) (p : ℕ × ℕ) :
    (rstep s p).rd.sum - (rstep s p).cd.sum = s.rd.sum - s.cd.sum := by
  unfold rstep
  split
  · rfl
  · dsimp only
    split
    · rename_i hcond
      have hi : p.1 < s.rd.length := getD_pos_lt_length _ _ hcond.1
      have hj : p.2 < s.cd.length := getD_pos_lt_length _ _ hcond.2
      show (s.rd.set p.1 _).sum - (s.cd.set p.2 _).sum = _
      rw [sum_set_int _ _ _ hi, sum_set_int _ _ _ hj]
      ring
    · rfl

theorem rstep_rd_nonneg (s : RState) (p : ℕ × ℕ)
    (hrd : ∀ i, 0 ≤ s.rd.getD i 0) (_hcd : ∀ j, 0 ≤ s.cd.getD j 0) :
    ∀ i, 0 ≤ (rstep s p).rd.getD i 0 := by
  intro i
  unfold rstep
  split
  · exact hrd i
  · dsimp only
    split
    · rename_i hcond
      show 0 ≤ (s.rd.set p.1 _).getD i 0
      rw [getD_set_split]
      split
      · have := min_le_left (s.rd.getD p.1 0) (s.cd.getD p.2 0)
        omega
      · exact hrd i
    · exact hrd i

theorem rstep_cd_nonneg (s : RState) (p : ℕ × ℕ)
    (_hrd : ∀ i, 0 ≤ s.rd.getD i 0) (hcd : ∀ j, 0 ≤ s.cd.getD j 0) :
    ∀ j, 0 ≤ (rstep s p).cd.getD j 0 := by
  intro j
  unfold rstep
  split
  · exact hcd j
  · dsimp only
    split
    · rename_i hcond
      show 0 ≤ (s.cd.set p.2 _).getD j 0
      rw [getD_set_split]
      split
      · have := min_le_right (s.rd.getD p.1 0) (s.cd.getD p.2 0)
        omega
      · exact hcd j
    · exact hcd j

theorem rstep_min_nonpos (s : RState) (p : ℕ × ℕ) (h : s.done = false) :
    min ((rstep s p).rd.getD p.1 0) ((rstep s p).cd.getD p.2 0) ≤ 0 := by
  unfold rstep
  rw [h]
  simp only [Bool.false_eq_true, if_false]
  split
  · rename_i hcond
    have hi : p.1 < s.rd.length := getD_pos_lt_length _ _ hcond.1
    have hj : p.2 < s.cd.length := getD_pos_lt_length _ _ hcond.2
    show min ((s.rd.set p.1 _).getD p.1 0) ((s.cd.set p.2 _).getD p.2 0) ≤ 0
    rw [getD_set_split, if_pos ⟨rfl, hi⟩, getD_set_split, if_pos ⟨rfl, hj⟩]
    rcases min_cases (s.rd.getD p.1 0) (s.cd.getD p.2 0) with ⟨he, -⟩ | ⟨he, -⟩ <;> omega
  · rename_i hcond
    show min (s.rd.getD p.1 0) (s.cd.getD p.2 0) ≤ 0
    rcases not_and_or.mp hcond with h1 | h1 <;>
      rcases min_cases (s.rd.getD p.1 0) (s.cd.getD p.2 0) with ⟨he, h2⟩ | ⟨he, h2⟩ <;> omega

theorem rstep_done_iff (s : RState) (p : ℕ × ℕ) (h : s.done = false) :
    (rstep s p).done = decide ((rstep s p).rd.sum = 0 ∧ (rstep s p).cd.sum = 0) := by
  unfold rstep
  rw [h]
  simp only [Bool.false_eq_true, if_false]
  split
  · rfl
  · rfl

theorem rstep_done_sound (s : RState) (p : ℕ × ℕ) (h : s.done = false)
    (h2 : (rstep s p).done = true) :
    (rstep s p).rd.sum = 0 ∧ (rstep s p).cd.sum = 0 := by
  rw [rstep_done_iff s p h] at h2
  exact of_decide_eq_true h2

/-- Structural well-formedness carried through the walk: the row
deficit vector indexes the matrix rows and every row is at least as
wide as the column deficit vector. -/
def WfLen (s : RState) : Prop :=
  s.rd.length ≤ s.Xc.length ∧ ∀ i < s.Xc.length, s.cd.length ≤ (s.Xc.getD i []).length

theorem rstep_wf (s : RState) (p : ℕ × ℕ) (h : WfLen s) : WfLen (rstep s p) := by
  constructor
  · rw [rstep_rd_length, rstep_Xc_length]
    exact h.1
  · intro i hi
    rw [rstep_cd_length, rstep_Xc_row_length]
    rw [rstep_Xc_length] at hi
    exact h.2 i hi

theorem rstep_rowlink (s : RState) (p : ℕ × ℕ) (h : WfLen s) (i : ℕ) :
    (rstep s p).rd.getD i 0 + ((rstep s p).Xc.getD i []).sum
      = s.rd.getD i 0 + (s.Xc.getD i []).sum := by
  unfold rstep
  split
  · rfl
  · dsimp only
    split
    · rename_i hcond
      have hi : p.1 < s.rd.length := getD_pos_lt_length _ _ hcond.1
      have hj : p.2 < s.cd.length := getD_pos_lt_length _ _ hcond.2
      have hiX : p.1 < s.Xc.length := lt_of_lt_of_le hi h.1
      have hjrow : p.2 < (s.Xc.getD p.1 []).length := lt_of_lt_of_le hj (h.2 p.1 hiX)
      show (s.rd.set p.1 _).getD i 0 + ((setZ s.Xc p.1 p.2 _).getD i []).sum = _
      unfold setZ
      rw [getD_set_split (s.rd), getD_set_split (s.Xc)]
      by_cases hip : i = p.1
      · subst hip
        rw [if_pos ⟨rfl, hi⟩, if_pos ⟨rfl, hiX⟩]
        rw [sum_set_int _ _ _ hjrow]
        have hgz : getZ s.Xc p.1 p.2 = (s.Xc.getD p.1 []).getD p.2 0 := rfl
        rw [hgz]
        ring
      · rw [if_neg (by rintro ⟨rfl, -⟩; exact hip rfl),
          if_neg (by rintro ⟨rfl, -⟩; exact hip rfl)]
    · rfl

theorem rstep_collink (s : RState) (p : ℕ × ℕ) (h : WfLen s) (j : ℕ) :
    (rstep s p).cd.getD j 0 + colSumZ (rstep s p).Xc j
      = s.cd.getD j 0 + colSumZ s.Xc j := by
  unfold rstep
  split
  · rfl
  · dsimp only
    split
    · rename_i hcond
      have hi : p.1 < s.rd.length := getD_pos_lt_length _ _ hcond.1
      have hj : p.2 < s.cd.length := getD_pos_lt_length _ _ hcond.2
      have hiX : p.1 < s.Xc.length := lt_of_lt_of_le hi h.1
      have hjrow : p.2 < (s.Xc.getD p.1 []).length := lt_of_lt_of_le hj (h.2 p.1 hiX)
      show (s.cd.set p.2 _).getD j 0 + colSumZ (setZ s.Xc p.1 p.2 _) j = _
      unfold setZ colSumZ
      rw [getD_set_split (s.cd), List.map_set]
      rw [sum_set_int _ _ _ (by simpa using hiX)]
      have hmg : (s.Xc.map (fun r => r.getD j 0)).getD p.1 0 = (s.Xc.getD p.1 []).getD j 0 := by
        rw [List.getD_eq_getElem _ _ (by simpa using hiX), List.getElem_map,
          List.getD_eq_getElem _ _ hiX]
      rw [hmg, getD_set_split ((s.Xc.getD p.1 []))]
      by_cases hjp : j = p.2
      · subst hjp
        rw [if_pos ⟨rfl, hj⟩, if_pos ⟨rfl, hjrow⟩]
        have hgz : getZ s.Xc p.1 p.2 = (s.Xc.getD p.1 []).getD p.2 0 := rfl
        rw [hgz]
        ring
      · rw [if_neg (by rintro ⟨rfl, -⟩; exact hjp rfl),
          if_neg (by rintro ⟨rfl, -⟩; exact hjp rfl)]
        ring
    · rfl

/-! ### Walk-level lemmas (fold over the sorted cell list) -/

theorem roundLoop_cons (p : ℕ × ℕ) (rest : List (ℕ × ℕ)) (s : RState) :
    roundLoop (p :: rest) s = roundLoop rest (rstep s p) := rfl

theorem roundLoop_of_done (idx : List (ℕ × ℕ)) (s : RState) (h : s.done = true) :
    roundLoop idx s = s := by
  induction idx generalizing s with
  | nil => rfl
  | cons p rest ih =>
    rw [roundLoop_cons, rstep_of_done s p h]
    exact ih s h

theorem roundLoop_rd_le (idx : List (ℕ × ℕ)) (s : RState) (i : ℕ) :
    (roundLoop idx s).rd.getD i 0 ≤ s.rd.getD i 0 := by
  induction idx generalizing s with
  | nil => exact le_refl _
  | cons p rest ih =>
    rw [roundLoop_cons]
    exact le_trans (ih (rstep s p)) (rstep_rd_le s p i)

theorem roundLoop_cd_le (idx : List (ℕ × ℕ)) (s : RState) (j : ℕ) :
    (roundLoop idx s).cd.getD j 0 ≤ s.cd.getD j 0 := by
  induction idx generalizing s with
  | nil => exact le_refl _
  | cons p rest ih =>
    rw [roundLoop_cons]
    exact le_trans (ih (rstep s p)) (rstep_cd_le s p j)

theorem roundLoop_Xc_ge (idx : List (ℕ × ℕ)) (s : RState) (i j : ℕ) :
    getZ s.Xc i j ≤ getZ (roundLoop idx s).Xc i j := by
  induction idx generalizing s with
  | nil => exact le_refl _
  | cons p rest ih =>
    rw [roundLoop_cons]
    exact le_trans (rstep_Xc_ge s p i j) (ih (rstep s p))

theorem roundLoop_rd_length (idx : List (ℕ × ℕ)) (s : RState) :
    (roundLoop idx s).rd.length = s.rd.length := by
  induction idx generalizing s with
  | nil => rfl
  | cons p rest ih =>
    rw [roundLoop_cons, ih (rstep s p), rstep_rd_length]

theorem roundLoop_cd_length (idx : List (ℕ × ℕ)) (s : RState) :
    (roundLoop idx s).cd.length = s.cd.length := by
  induction idx generalizing s with
  | nil => rfl
  | cons p rest ih =>
    rw [roundLoop_cons, ih (rstep s p), rstep_cd_length]

theorem roundLoop_sumdiff (idx : List (ℕ × ℕ)) (s : RState) :
    (roundLoop idx s).rd.sum - (roundLoop idx s).cd.sum = s.rd.sum - s.cd.sum := by
  induction idx generalizing s with
  | nil => rfl
  | cons p rest ih =>
    rw [roundLoop_cons, ih (rstep s p), rstep_sumdiff]

theorem roundLoop_wf (idx : List (ℕ × ℕ)) (s : RState) (h : WfLen s) :
    WfLen (roundLoop idx s) := by
  induction idx generalizing s with
  | nil => exact h
  | cons p rest ih =>
    rw [roundLoop_cons]
    exact ih (rstep s p) (rstep_wf s p h)

theorem roundLoop_rowlink (idx : List (ℕ × ℕ)) (s : RState) (h : WfLen s) (i : ℕ) :
    (roundLoop idx s).rd.getD i 0 + ((roundLoop idx s).Xc.getD i []).sum
      = s.rd.getD i 0 + (s.Xc.getD i []).sum := by
  induction idx generalizing s with
  | nil => rfl
  | cons p rest ih =>
    rw [roundLoop_cons, ih (rstep s p) (rstep_wf s p h), rstep_rowlink s p h]

theorem roundLoop_collink (idx : List (ℕ × ℕ)) (s : RState) (h : WfLen s) (j : ℕ) :
    (roundLoop idx s).cd.getD j 0 + colSumZ (roundLoop idx s).Xc j
      = s.cd.getD j 0 + colSumZ s.Xc j := by
  induction idx generalizing s with
  | nil => rfl
  | cons p rest ih =>
    rw [roundLoop_cons, ih (rstep s p) (rstep_wf s p h), rstep_collink s p h]

theorem roundLoop_rd_nonneg (idx : List (ℕ × ℕ)) (s : RState)
    (hrd : ∀ i, 0 ≤ s.rd.getD i 0) (hcd : ∀ j, 0 ≤ s.cd.getD j 0) :
    (∀ i, 0 ≤ (roundLoop idx s).rd.getD i 0) ∧ (∀ j, 0 ≤ (roundLoop idx s).cd.getD j 0) := by
  induction idx generalizing s with
  | nil => exact ⟨hrd, hcd⟩
  | cons p rest ih =>
    rw [roundLoop_cons]
    exact ih (rstep s p) (rstep_rd_nonneg s p hrd hcd) (rstep_cd_nonneg s p hrd hcd)

theorem roundLoop_done_sums (idx : List (ℕ × ℕ)) (s : RState) (h : s.done = false)
    (h2 : (roundLoop idx s).done = true) :
    (roundLoop idx s).rd.sum = 0 ∧ (roundLoop idx s).cd.sum = 0 := by
  induction idx generalizing s with
  | nil => rw [roundLoop] at h2; simp only [List.foldl_nil] at h2; rw [h] at h2; cases h2
  | cons p rest ih =>
    rw [roundLoop_cons] at h2 ⊢
    by_cases hd : (rstep s p).done = true
    · rw [roundLoop_of_done rest _ hd]
      exact rstep_done_sound s p h hd
    · exact ih (rstep s p) (Bool.eq_false_iff.mpr hd) h2

theorem roundLoop_min_nonpos (idx : List (ℕ × ℕ)) (s : RState) (p : ℕ × ℕ)
    (hp : p ∈ idx) :
    (roundLoop idx s).done = true
    ∨ min ((roundLoop idx s).rd.getD p.1 0) ((roundLoop idx s).cd.getD p.2 0) ≤ 0 := by
  induction idx generalizing s with
  | nil => cases hp
  | cons q rest ih =>
    rw [roundLoop_cons]
    by_cases hd : s.done = true
    · left
      rw [roundLoop_of_done rest _ (by rw [rstep_of_done s q hd]; exact hd)]
      rw [rstep_of_done s q hd]
      exact hd
    · rcases List.mem_cons.mp hp with h | h
      · subst h
        right
        have h1 := rstep_min_nonpos s p (Bool.eq_false_iff.mpr hd)
        have h2 := roundLoop_rd_le rest (rstep s p) p.1
        have h3 := roundLoop_cd_le rest (rstep s p) p.2
        rcases min_cases ((rstep s p).rd.getD p.1 0) ((rstep s p).cd.getD p.2 0) with
          ⟨he, -⟩ | ⟨he, -⟩ <;>
          rcases min_cases ((roundLoop rest (rstep s p)).rd.getD p.1 0)
            ((roundLoop rest (rstep s p)).cd.getD p.2 0) with ⟨hf, -⟩ | ⟨hf, -⟩ <;> omega
      · exact ih (rstep s q) h

/-! ### Initial state of the correction walk -/

theorem sum_zipWith_sub (a b : List ℤ) (h : a.length = b.length) :
    (List.zipWith (· - ·) a b).sum = a.sum - b.sum := by
  induction a generalizing b with
  | nil =>
    cases b with
    | nil => simp
    | cons y ys => simp at h
  | cons x xs ih =>
    cases b with
    | nil => simp at h
    | cons y ys =>
      simp only [List.zipWith_cons_cons, List.sum_cons, ih ys (by simpa using h)]
      ring

theorem getD_zipWith_sub (a b : List ℤ) (i : ℕ) (hia : i < a.length) (hib : i < b.length) :
    (List.zipWith (· - ·) a b).getD i 0 = a.getD i 0 - b.getD i 0 := by
  rw [List.getD_eq_getElem _ _ (by rw [List.length_zipWith]; omega), List.getElem_zipWith,
    List.getD_eq_getElem _ _ hia, List.getD_eq_getElem _ _ hib]

theorem getD_map_list {α β : Type} (m : List (List α)) (f : List α → List β)
    (hf : f [] = []) (i : ℕ) : (m.map f).getD i [] = f (m.getD i []) := by
  rcases lt_or_ge i m.length with h | h
  · rw [List.getD_eq_getElem _ _ (by simpa using h), List.getElem_map,
      List.getD_eq_getElem _ _ h]
  · rw [List.getD_eq_default _ _ (by simpa using h), List.getD_eq_default _ _ h, hf]

theorem getD_map_floor (l : List ℚ) (j : ℕ) :
    (l.map (fun x => ⌊x * 100⌋)).getD j 0 = ⌊(l.getD j 0) * 100⌋ := by
  rcases lt_or_ge j l.length with h | h
  · rw [List.getD_eq_getElem _ _ (by simpa using h), List.getElem_map,
      List.getD_eq_getElem _ _ h]
  · rw [List.getD_eq_default _ _ (by simpa using h), List.getD_eq_default _ _ h]
    norm_num

theorem getD_map_cast_div (row : List ℤ) (j : ℕ) :
    (row.map (fun z : ℤ => (z : ℚ) / 100)).getD j 0 = ((row.getD j 0 : ℤ) : ℚ) / 100 := by
  rcases lt_or_ge j row.length with h | h
  · rw [List.getD_eq_getElem _ _ (by simpa using h), List.getElem_map,
      List.getD_eq_getElem _ _ h]
  · rw [List.getD_eq_default _ _ (by simpa using h), List.getD_eq_default _ _ h]
    norm_num

theorem sum_map_cast_div (l : List ℤ) :
    (l.map (fun z : ℤ => (z : ℚ) / 100)).sum = ((l.sum : ℤ) : ℚ) / 100 := by
  induction l with
  | nil => simp
  | cons x xs ih =>
    simp only [List.map_cons, List.sum_cons, ih]
    push_cast
    ring

theorem rowSumsZ_getD (m : List (List ℤ)) (i : ℕ) (hi : i < m.length) :
    (rowSumsZ m).getD i 0 = (m.getD i []).sum := by
  unfold rowSumsZ
  rw [List.getD_eq_getElem _ _ (by simpa using hi), List.getElem_map,
    List.getD_eq_getElem _ _ hi]

theorem getZ_floorCents (X : List (List ℚ)) (i j : ℕ) :
    getZ (floorCents X) i j = ⌊((X.getD i []).getD j 0) * 100⌋ := by
  unfold getZ floorCents
  rw [getD_map_list _ _ (by simp) i, getD_map_floor]

theorem floorCents_length (X : List (List ℚ)) : (floorCents X).length = X.length := by
  simp [floorCents]

theorem floorCents_row_length (X : List (List ℚ)) (i : ℕ) :
    ((floorCents X).getD i []).length = (X.getD i []).length := by
  unfold floorCents
  rw [getD_map_list _ _ (by simp) i, List.length_map]

theorem colSums_sum_eq (m : List (List ℤ)) (nC : ℕ) (h : ∀ r ∈ m, r.length = nC) :
    (colSumsZ m nC).sum = (rowSumsZ m).sum := by
  induction m with
  | nil =>
    have h0 : colSumZ [] = fun _ : ℕ => (0:ℤ) := by
      funext j
      simp [colSumZ]
    simp only [colSumsZ, rowSumsZ, h0, List.map_const', List.sum_replicate, List.map_nil,
      List.sum_nil, smul_zero]
  | cons r m ih =>
    have hr : r.length = nC := h r (List.mem_cons_self _ _)
    have hm : ∀ r1 ∈ m, r1.length = nC := fun r1 h1 => h r1 (List.mem_cons_of_mem _ h1)
    have h1 : colSumsZ (r :: m) nC
        = (List.range nC).map (fun j => r.getD j 0 + colSumZ m j) := by
      unfold colSumsZ colSumZ
      simp
    rw [h1, sum_map_add_distrib]
    have h2 : ((List.range nC).map (fun j => r.getD j 0)).sum = r.sum := by
      rw [← hr]
      exact sum_range_getD r
    have h3 : ((List.range nC).map (fun j => colSumZ m j)).sum = (rowSumsZ m).sum := by
      rw [← ih hm]
      rfl
    rw [h2, h3]
    simp [rowSumsZ]

theorem allPairs_length (nR nC : ℕ) : (allPairs nR nC).length = nR * nC := by
  unfold allPairs
  rw [List.length_flatMap]
  have h1 : ((List.range nR).map (fun i => ((List.range nC).map (fun j => (i, j))).length))
      = (List.range nR).map (fun _ => nC) := by
    refine List.map_congr_left ?_
    intro i _
    simp
  simp only [Function.comp_def]
  rw [h1, List.map_const', List.sum_replicate, List.length_range, smul_eq_mul]

theorem mem_allPairs (nR nC i j : ℕ) : (i, j) ∈ allPairs nR nC ↔ i < nR ∧ j < nC := by
  unfold allPairs
  simp only [List.mem_flatMap, List.mem_map, List.mem_range, Prod.mk.injEq]
  constructor
  · rintro ⟨a, ha, b, hb, rfl, rfl⟩
    exact ⟨ha, hb⟩
  · rintro ⟨hi, hj⟩
    exact ⟨i, hi, j, hj, rfl, rfl⟩

theorem roundIdx_mem (X : List (List ℚ)) (i j : ℕ) :
    (i, j) ∈ roundIdx X ↔ i < X.length ∧ j < matCols X := by
  rw [roundIdx, (sortDescBy_perm _ _).mem_iff]
  exact mem_allPairs _ _ i j

theorem roundIdx_length (X : List (List ℚ)) :
    (roundIdx X).length = X.length * matCols X := by
  rw [roundIdx, (sortDescBy_perm _ _).length_eq]
  exact allPairs_length _ _

theorem initRd_length (X : List (List ℚ)) (rt : List ℚ) :
    (initRd X rt).length = min rt.length X.length := by
  simp [initRd, centTargets, rowSumsZ, floorCents]

theorem initCd_length (X : List (List ℚ)) (ct : List ℚ) :
    (initCd X ct).length = min ct.length (matCols X) := by
  simp [initCd, centTargets, colSumsZ]

theorem all_getD_imp_mem (l : List ℤ) (h : ∀ i, 0 ≤ l.getD i 0) : ∀ x ∈ l, 0 ≤ x := by
  intro x hx
  rcases List.mem_iff_getElem.mp hx with ⟨i, hi, rfl⟩
  have h1 := h i
  rwa [List.getD_eq_getElem _ _ hi] at h1

theorem exists_pos_getD_of_sum_pos (l : List ℤ) (h : 0 < l.sum) :
    ∃ i, i < l.length ∧ 0 < l.getD i 0 := by
  induction l with
  | nil => simp at h
  | cons x xs ih =>
    rcases lt_or_ge 0 x with hx | hx
    · exact ⟨0, by simp, by simpa [List.getD] using hx⟩
    · have h1 : 0 < xs.sum := by
        simp only [List.sum_cons] at h
        omega
      rcases ih h1 with ⟨i, hi, hpos⟩
      exact ⟨i + 1, by simpa using hi, by simpa [List.getD] using hpos⟩

theorem getD_eq_zero_of_sum_zero (l : List ℤ) (hnn : ∀ x ∈ l, 0 ≤ x) (hs : l.sum = 0)
    (i : ℕ) (hi : i < l.length) : l.getD i 0 = 0 := by
  rw [List.getD_eq_getElem _ _ hi]
  have h1 : l[i] ≤ l.sum := List.single_le_sum hnn _ (List.getElem_mem hi)
  have h2 := hnn _ (List.getElem_mem hi)
  omega

/-- C10: `round_matrix_exact_cents` never decreases a cell: every entry
of the returned matrix is at least `floor(100*X[i][j])/100` — the
correction pass only ever adds cents on top of the element-wise floor,
for every input matrix and all cent-target vectors. -/
theorem c10_round_never_decreases (X : List (List ℚ)) (rt ct : List ℚ) (i j : ℕ) :
    (⌊((X.getD i []).getD j 0) * 100⌋ : ℚ) / 100
      ≤ ((round_matrix_exact_cents X rt ct).getD i []).getD j 0 := by
  have h1 : ((round_matrix_exact_cents X rt ct).getD i []).getD j 0
      = ((getZ (roundState X rt ct).Xc i j : ℤ) : ℚ) / 100 := by
    unfold round_matrix_exact_cents
    rw [getD_map_list _ _ (by simp) i, getD_map_cast_div]
    rfl
  rw [h1]
  have h2 : (⌊((X.getD i []).getD j 0) * 100⌋ : ℤ) ≤ getZ (roundState X rt ct).Xc i j := by
    rw [← getZ_floorCents X i j]
    exact roundLoop_Xc_ge (roundIdx X) ⟨floorCents X, initRd X rt, initCd X ct, false⟩ i j
  exact (div_le_div_iff_of_pos_right (by norm_num : (0:ℚ) < 100)).mpr (Int.cast_le.mpr h2)

/-- C4: for every matrix and every pair of cent-target vectors of
matching shape — including target pairs with mismatched sums — the
correction walk of `round_matrix_exact_cents` is a single pass over a
list of exactly nR*nC cells (so it terminates; no exception path
exists), and the difference between the total remaining row deficit and
the total remaining column deficit at the end equals the initial target
mismatch sum(rT_cents) - sum(cT_cents). -/
theorem c4_round_mismatch_residual (X : List (List ℚ)) (rt ct : List ℚ)
    (hlen : rt.length = X.length)
    (hrect : ∀ r ∈ X, r.length = ct.length)
    (hcols : matCols X = ct.length) :
    (roundState X rt ct).rd.sum - (roundState X rt ct).cd.sum
        = (centTargets rt).sum - (centTargets ct).sum
    ∧ (roundIdx X).length = X.length * matCols X := by
  refine ⟨?_, roundIdx_length X⟩
  have h0 : (roundState X rt ct).rd.sum - (roundState X rt ct).cd.sum
      = (initRd X rt).sum - (initCd X ct).sum :=
    roundLoop_sumdiff (roundIdx X) ⟨floorCents X, initRd X rt, initCd X ct, false⟩
  rw [h0]
  unfold initRd initCd
  rw [sum_zipWith_sub _ _ (by
      simp only [centTargets, List.length_map, rowSumsZ, floorCents]
      rw [hlen]),
    sum_zipWith_sub _ _ (by
      simp only [centTargets, List.length_map, colSumsZ, List.length_range]
      omega)]
  have hcs : (colSumsZ (floorCents X) (matCols X)).sum = (rowSumsZ (floorCents X)).sum := by
    refine colSums_sum_eq _ _ ?_
    intro r hr
    rcases List.mem_map.mp hr with ⟨row, hrow, rfl⟩
    rw [List.length_map, hrect row hrow, ← hcols]
  rw [hcs]
  ring

/-- C4 witness: a 1-by-1 matrix with row target 100 dollars and column
target 99 dollars (cent sums 10000 vs 9900); the walk terminates and
the residual deficit difference is exactly the 100-cent shortfall. -/
theorem c4_round_mismatch_residual_witness :
    (([(100:ℚ)]).length = ([[(0:ℚ)]]).length
      ∧ (∀ r ∈ [[(0:ℚ)]], r.length = ([(99:ℚ)]).length)
      ∧ matCols [[(0:ℚ)]] = ([(99:ℚ)]).length)
    ∧ ((roundState [[(0:ℚ)]] [100] [99]).rd.sum - (roundState [[(0:ℚ)]] [100] [99]).cd.sum
        = (centTargets [100]).sum - (centTargets [99]).sum
      ∧ (roundIdx [[(0:ℚ)]]).length = ([[(0:ℚ)]]).length * matCols [[(0:ℚ)]])
    ∧ (centTargets [(100:ℚ)]).sum - (centTargets [(99:ℚ)]).sum = 100 :=
  ⟨⟨by norm_num, by norm_num [matCols], by norm_num [matCols]⟩,
    c4_round_mismatch_residual [[(0:ℚ)]] [100] [99] (by norm_num)
      (by norm_num [matCols]) (by norm_num [matCols]),
    by norm_num [centTargets, rint]⟩

/-- C1 counterexample: X = [[1]], row target 0, column target 0.  The
rounded cent targets have equal sums (0 = 0) and X is non-negative, yet
the returned matrix is [[1]] whose row sum 1 differs from the row
cent-target 0 — the claim fails without the additional feasibility
hypothesis that no row or column floor-sum exceeds its cent target. -/
theorem c1_counterexample :
    (∀ r ∈ [[(1:ℚ)]], ∀ x ∈ r, 0 ≤ x)
    ∧ (centTargets [(0:ℚ)]).sum = (centTargets [(0:ℚ)]).sum
    ∧ round_matrix_exact_cents [[(1:ℚ)]] [0] [0] = [[1]]
    ∧ ((round_matrix_exact_cents [[(1:ℚ)]] [0] [0]).getD 0 []).sum
        ≠ ((centTargets [(0:ℚ)]).getD 0 0 : ℚ) / 100 := by
  refine ⟨by norm_num, rfl, ?_, ?_⟩ <;>
    norm_num [round_matrix_exact_cents, roundState, roundIdx, roundLoop, rstep, allPairs,
      sortDescBy, insertDescBy, remFrac, matCols, floorCents, initRd, initCd, centTargets,
      rint, rowSumsZ, colSumsZ, colSumZ, getZ, setZ, List.range_succ]

/-- C1 (amended): if X is non-negative, the shapes match, the rounded
cent targets have equal sums, and additionally every initial row and
column deficit is non-negative (no row or column of the floored cents
matrix exceeds its cent target — the feasibility the spec assumes),
then the matrix returned by `round_matrix_exact_cents` consists of
non-negative integer cent values, every row sums exactly to its row
cent-target and every column sums exactly to its column cent-target. -/
theorem c1_round_exact_cents (X : List (List ℚ)) (rt ct : List ℚ)
    (hXnn : ∀ r ∈ X, ∀ x ∈ r, 0 ≤ x)
    (hlen : rt.length = X.length)
    (hrect : ∀ r ∈ X, r.length = ct.length)
    (hcols : matCols X = ct.length)
    (hrd0 : ∀ i, 0 ≤ (initRd X rt).getD i 0)
    (hcd0 : ∀ j, 0 ≤ (initCd X ct).getD j 0)
    (hsum : (centTargets rt).sum = (centTargets ct).sum) :
    (∀ i j, ∃ z : ℤ, 0 ≤ z
        ∧ ((round_matrix_exact_cents X rt ct).getD i []).getD j 0 = (z : ℚ) / 100)
    ∧ (∀ i < rt.length,
        ((round_matrix_exact_cents X rt ct).getD i []).sum
          = ((centTargets rt).getD i 0 : ℚ) / 100)
    ∧ (∀ j < ct.length,
        ((round_matrix_exact_cents X rt ct).map (fun r => r.getD j 0)).sum
          = ((centTargets ct).getD j 0 : ℚ) / 100) := by
  have hFdef : roundState X rt ct
      = roundLoop (roundIdx X) ⟨floorCents X, initRd X rt, initCd X ct, false⟩ := rfl
  have hFrd_len : (roundState X rt ct).rd.length = rt.length := by
    rw [hFdef, roundLoop_rd_length]
    show (initRd X rt).length = rt.length
    rw [initRd_length]
    omega
  have hFcd_len : (roundState X rt ct).cd.length = ct.length := by
    rw [hFdef, roundLoop_cd_length]
    show (initCd X ct).length = ct.length
    rw [initCd_length]
    omega
  have hwf : WfLen ⟨floorCents X, initRd X rt, initCd X ct, false⟩ := by
    constructor
    · show (initRd X rt).length ≤ (floorCents X).length
      rw [initRd_length, floorCents_length]
      omega
    · intro i hi
      show (initCd X ct).length ≤ ((floorCents X).getD i []).length
      rw [initCd_length, floorCents_row_length]
      have hi2 : i < X.length := by
        rw [floorCents_length] at hi
        exact hi
      have h3 : (X.getD i []).length = ct.length := by
        rw [List.getD_eq_getElem _ _ hi2]
        exact hrect _ (List.getElem_mem hi2)
      omega
  have hnn : (∀ i, 0 ≤ (roundState X rt ct).rd.getD i 0)
      ∧ (∀ j, 0 ≤ (roundState X rt ct).cd.getD j 0) :=
    roundLoop_rd_nonneg (roundIdx X)
      ⟨floorCents X, initRd X rt, initCd X ct, false⟩ hrd0 hcd0
  have hs0diff : (initRd X rt).sum - (initCd X ct).sum = 0 := by
    unfold initRd initCd
    rw [sum_zipWith_sub _ _ (by
        simp only [centTargets, List.length_map, rowSumsZ, floorCents]
        rw [hlen]),
      sum_zipWith_sub _ _ (by
        simp only [centTargets, List.length_map, colSumsZ, List.length_range]
        omega)]
    have hcs : (colSumsZ (floorCents X) (matCols X)).sum = (rowSumsZ (floorCents X)).sum := by
      refine colSums_sum_eq _ _ ?_
      intro r hr
      rcases List.mem_map.mp hr with ⟨row, hrow, rfl⟩
      rw [List.length_map, hrect row hrow, ← hcols]
    rw [hcs]
    omega
  have hFdiff : (roundState X rt ct).rd.sum - (roundState X rt ct).cd.sum = 0 := by
    rw [hFdef, roundLoop_sumdiff]
    exact hs0diff
  have hsums0 : (roundState X rt ct).rd.sum = 0 ∧ (roundState X rt ct).cd.sum = 0 := by
    by_cases hd : (roundState X rt ct).done = true
    · rw [hFdef] at hd ⊢
      exact roundLoop_done_sums _ _ rfl hd
    · have hrdnn : 0 ≤ (roundState X rt ct).rd.sum :=
        List.sum_nonneg (all_getD_imp_mem _ hnn.1)
      rcases eq_or_lt_of_le hrdnn with h | h
      · constructor
        · omega
        · omega
      · exfalso
        obtain ⟨i, hilen, hipos⟩ := exists_pos_getD_of_sum_pos _ h
        have hcsum : 0 < (roundState X rt ct).cd.sum := by omega
        obtain ⟨j, hjlen, hjpos⟩ := exists_pos_getD_of_sum_pos _ hcsum
        have hij : (i, j) ∈ roundIdx X := by
          refine (roundIdx_mem X i j).mpr ⟨?_, ?_⟩
          · rw [hFrd_len] at hilen
            omega
          · rw [hFcd_len] at hjlen
            omega
        have hmin : (roundState X rt ct).done = true
            ∨ min ((roundState X rt ct).rd.getD i 0) ((roundState X rt ct).cd.getD j 0) ≤ 0 :=
          roundLoop_min_nonpos (roundIdx X)
            ⟨floorCents X, initRd X rt, initCd X ct, false⟩ (i, j) hij
        rcases hmin with h1 | h1
        · exact hd h1
        · rcases min_cases ((roundState X rt ct).rd.getD i 0)
            ((roundState X rt ct).cd.getD j 0) with ⟨he, -⟩ | ⟨he, -⟩ <;> omega
  have hrd_zero : ∀ i < rt.length, (roundState X rt ct).rd.getD i 0 = 0 := by
    intro i hi
    refine getD_eq_zero_of_sum_zero _ (all_getD_imp_mem _ hnn.1) hsums0.1 i ?_
    omega
  have hcd_zero : ∀ j < ct.length, (roundState X rt ct).cd.getD j 0 = 0 := by
    intro j hj
    refine getD_eq_zero_of_sum_zero _ (all_getD_imp_mem _ hnn.2) hsums0.2 j ?_
    omega
  have hentry : ∀ i j, ((round_matrix_exact_cents X rt ct).getD i []).getD j 0
      = ((getZ (roundState X rt ct).Xc i j : ℤ) : ℚ) / 100 := by
    intro i j
    unfold round_matrix_exact_cents
    rw [getD_map_list _ _ (by simp) i, getD_map_cast_div]
    rfl
  refine ⟨?_, ?_, ?_⟩
  · intro i j
    refine ⟨getZ (roundState X rt ct).Xc i j, ?_, hentry i j⟩
    have h2 : getZ (floorCents X) i j ≤ getZ (roundState X rt ct).Xc i j :=
      roundLoop_Xc_ge (roundIdx X) ⟨floorCents X, initRd X rt, initCd X ct, false⟩ i j
    have h3 : 0 ≤ getZ (floorCents X) i j := by
      rw [getZ_floorCents]
      refine Int.floor_nonneg.mpr (mul_nonneg ?_ (by norm_num))
      refine getD_nonneg _ ?_ j
      intro x hx
      rcases lt_or_ge i X.length with h | h
      · rw [List.getD_eq_getElem _ _ h] at hx
        exact hXnn _ (List.getElem_mem h) x hx
      · rw [List.getD_eq_default _ _ h] at hx
        cases hx
    omega
  · intro i hi
    have hlink : (roundState X rt ct).rd.getD i 0 + ((roundState X rt ct).Xc.getD i []).sum
        = (initRd X rt).getD i 0 + ((floorCents X).getD i []).sum :=
      roundLoop_rowlink (roundIdx X)
        ⟨floorCents X, initRd X rt, initCd X ct, false⟩ hwf i
    have hs0rd : (initRd X rt).getD i 0
        = (centTargets rt).getD i 0 - ((floorCents X).getD i []).sum := by
      unfold initRd
      rw [getD_zipWith_sub _ _ i (by simp only [centTargets, List.length_map]; omega)
        (by simp only [rowSumsZ, List.length_map, floorCents]; omega),
        rowSumsZ_getD _ _ (by rw [floorCents_length]; omega)]
    have hrowsum : ((roundState X rt ct).Xc.getD i []).sum = (centTargets rt).getD i 0 := by
      have h4 := hrd_zero i hi
      rw [hs0rd] at hlink
      omega
    unfold round_matrix_exact_cents
    rw [getD_map_list _ _ (by simp) i, sum_map_cast_div, hrowsum]
  · intro j hj
    have hlink : (roundState X rt ct).cd.getD j 0 + colSumZ (roundState X rt ct).Xc j
        = (initCd X ct).getD j 0 + colSumZ (floorCents X) j :=
      roundLoop_collink (roundIdx X)
        ⟨floorCents X, initRd X rt, initCd X ct, false⟩ hwf j
    have hs0cd : (initCd X ct).getD j 0
        = (centTargets ct).getD j 0 - colSumZ (floorCents X) j := by
      unfold initCd
      rw [getD_zipWith_sub _ _ j (by simp only [centTargets, List.length_map]; omega)
        (by simp only [colSumsZ, List.length_map, List.length_range]; omega)]
      congr 1
      unfold colSumsZ
      rw [getD_map_range _ _ _ (by omega)]
    have hcolsum : colSumZ (roundState X rt ct).Xc j = (centTargets ct).getD j 0 := by
      have h4 := hcd_zero j hj
      rw [hs0cd] at hlink
      omega
    have h6 : (round_matrix_exact_cents X rt ct).map (fun r => r.getD j 0)
        = ((roundState X rt ct).Xc.map (fun row => row.getD j 0)).map
            (fun z : ℤ => (z : ℚ) / 100) := by
      unfold round_matrix_exact_cents
      rw [List.map_map, List.map_map]
      refine List.map_congr_left ?_
      intro row _
      exact getD_map_cast_div row j
    rw [h6, sum_map_cast_div]
    show ((colSumZ (roundState X rt ct).Xc j : ℤ) : ℚ) / 100 = _
    rw [hcolsum]

theorem getD_nonneg_of_forall_mem (l : List ℤ) (h : ∀ x ∈ l, 0 ≤ x) (i : ℕ) :
    0 ≤ l.getD i 0 := by
  rcases lt_or_ge i l.length with hi | hi
  · rw [List.getD_eq_getElem _ _ hi]
    exact h _ (List.getElem_mem hi)
  · rw [List.getD_eq_default _ _ hi]

/-- Demonstration matrix for the C1 witness: real row sums 50, 50 and
column sums 60, 40 with half-cent fractional parts in every cell. -/
def roundDemoX : List (List ℚ) := [[5999/200, 4001/200], [6001/200, 3999/200]]

/-- C1 witness: the amended theorem at a 2-by-2 matrix against the
spec's `rT = [5000, 5000]`, `cT = [6000, 4000]` cent targets; the
exactly rounded matrix is [[30, 20], [30, 20]] dollars. -/
theorem c1_round_exact_cents_witness :
    ((∀ r ∈ roundDemoX, ∀ x ∈ r, 0 ≤ x)
      ∧ ([(50:ℚ), 50]).length = roundDemoX.length
      ∧ (∀ r ∈ roundDemoX, r.length = ([(60:ℚ), 40]).length)
      ∧ matCols roundDemoX = ([(60:ℚ), 40]).length
      ∧ (∀ i, 0 ≤ (initRd roundDemoX [50, 50]).getD i 0)
      ∧ (∀ j, 0 ≤ (initCd roundDemoX [60, 40]).getD j 0)
      ∧ (centTargets [(50:ℚ), 50]).sum = (centTargets [(60:ℚ), 40]).sum)
    ∧ (∀ i < ([(50:ℚ), 50]).length,
        ((round_matrix_exact_cents roundDemoX [50, 50] [60, 40]).getD i []).sum
          = ((centTargets [(50:ℚ), 50]).getD i 0 : ℚ) / 100)
    ∧ round_matrix_exact_cents roundDemoX [50, 50] [60, 40] = [[30, 20], [30, 20]] := by
  have h1 : ∀ r ∈ roundDemoX, ∀ x ∈ r, 0 ≤ x := by norm_num [roundDemoX]
  have h2 : ([(50:ℚ), 50]).length = roundDemoX.length := by norm_num [roundDemoX]
  have h3 : ∀ r ∈ roundDemoX, r.length = ([(60:ℚ), 40]).length := by norm_num [roundDemoX]
  have h4 : matCols roundDemoX = ([(60:ℚ), 40]).length := by norm_num [roundDemoX, matCols]
  have h5 : ∀ i, 0 ≤ (initRd roundDemoX [50, 50]).getD i 0 := by
    refine getD_nonneg_of_forall_mem _ ?_
    norm_num [roundDemoX, initRd, centTargets, rint, rowSumsZ, floorCents]
  have h6 : ∀ j, 0 ≤ (initCd roundDemoX [60, 40]).getD j 0 := by
    refine getD_nonneg_of_forall_mem _ ?_
    norm_num [roundDemoX, initCd, centTargets, rint, colSumsZ, colSumZ, matCols,
      floorCents, List.range_succ]
  have h7 : (centTargets [(50:ℚ), 50]).sum = (centTargets [(60:ℚ), 40]).sum := by
    norm_num [centTargets, rint]
  exact ⟨⟨h1, h2, h3, h4, h5, h6, h7⟩,
    (c1_round_exact_cents roundDemoX [50, 50] [60, 40] h1 h2 h3 h4 h5 h6 h7).2.1,
    by norm_num [round_matrix_exact_cents, roundState, roundIdx, roundLoop, rstep, allPairs,
      sortDescBy, insertDescBy, remFrac, matCols, floorCents, initRd, initCd, centTargets,
      rint, rowSumsZ, colSumsZ, colSumZ, getZ, setZ, roundDemoX, List.range_succ]⟩

/-! ## TIV build (tiv_module.py lines 201-244)

A cleaned sheet row (the output of `load_tiv_sheet`'s normalization)
carries the location key (`None`/NaN for blank), the coverage label,
and the numeric premium and TIV values. -/

structure TivRow where
  loc : Option String
  cov : String
  premium : ℚ
  tiv : ℚ
deriving DecidableEq

/-- Location labels: `unique_ordered(df[loc].dropna())` (line 203). -/
def tivLocs (rows : List TivRow) : List String :=
  tivUniqueOrdered (rows.filterMap (fun r => r.loc))

/-- Global TIV per location: `groupby(loc)[tiv].sum()` over rows with a
location, with `setdefault(l, 0.0)` (lines 206-209). -/
def globalTiv (rows : List TivRow) (l : String) : ℚ :=
  ((rows.filter (fun r => decide (r.loc = some l))).map (fun r => r.tiv)).sum

/-- Coverage labels: `unique_ordered(df[cov])` (line 212). -/
def tivCovs (rows : List TivRow) : List String :=
  tivUniqueOrdered (rows.map (fun r => r.cov))

/-- Premium totals per coverage: `groupby(cov)[pre].sum()` (line 213). -/
def premiumByCov (rows : List TivRow) (c : String) : ℚ :=
  ((rows.filter (fun r => decide (r.cov = c))).map (fun r => r.premium)).sum

/-- Coverage-specific TIV per (coverage, location):
`groupby([cov, loc])[tiv].sum()` over rows with a location (line 216);
a missing group key is the empty sum 0. -/
def covLocTiv (rows : List TivRow) (c l : String) : ℚ :=
  ((rows.filter (fun r => decide (r.cov = c ∧ r.loc = some l))).map (fun r => r.tiv)).sum

/-- `cov_locs`: the locations with a positive coverage-specific TIV
(line 225; a (cov, loc) key exists with positive sum iff the sum is
positive). -/
def covLocsFor (rows : List TivRow) (c : String) : List String :=
  (tivLocs rows).filter (fun l => decide (0 < covLocTiv rows c l))

/-- The location list each coverage is allocated over (lines 226-232):
the category-specific locations when at least two carry positive
category TIV, else all locations. -/
def covAllocLocs (rows : List TivRow) (c : String) : List String :=
  if 2 ≤ (covLocsFor rows c).length then covLocsFor rows c else tivLocs rows

/-- The weight map handed to the allocator (lines 227 and 231). -/
def covTivMap (rows : List TivRow) (c : String) : List (String × ℚ) :=
  if 2 ≤ (covLocsFor rows c).length then
    (covLocsFor rows c).map (fun l => (l, covLocTiv rows c l))
  else (tivLocs rows).map (fun l => (l, globalTiv rows l))

/-- The per-coverage allocation `alloc` (line 234). -/
def covAlloc (rows : List TivRow) (c : String) : List (String × ℚ) :=
  allocate_cents_for_coverage (premiumByCov rows c) (covTivMap rows c) (covAllocLocs rows c)

/-- The content of `mat[l][cov]` after the build loop (lines 219-236):
cells of the locs-by-covs dictionary start at 0 and the cells of each
coverage's `alloc_locs` receive `alloc.get(l, 0.0)`; a location outside
`alloc_locs` keeps 0, which is also what the lookup default yields. -/
def matEntry (rows : List TivRow) (l c : String) : ℚ :=
  if l ∈ tivLocs rows ∧ c ∈ tivCovs rows then lookupD (covAlloc rows c) l 0 else 0

/-- `build_tiv_matrix`: locations, coverages, the matrix in locs-by-covs
order, per-location row totals summed across coverages, and the
pass-through premium column totals (lines 238-244). -/
def build_tiv_matrix (rows : List TivRow) :
    List String × List String × List (List ℚ) × List ℚ × List ℚ :=
  let locs := tivLocs rows
  let covs := tivCovs rows
  (locs, covs,
    locs.map (fun l => covs.map (fun c => matEntry rows l c)),
    locs.map (fun l => (covs.map (fun c => matEntry rows l c)).sum),
    covs.map (fun c => premiumByCov rows c))

theorem lookupD_map_self (f : String → ℚ) (ls : List String) (x : String) :
    lookupD (ls.map (fun l => (l, f l))) x 0 = if x ∈ ls then f x else 0 := by
  induction ls with
  | nil => simp [lookupD]
  | cons a as ih =>
    by_cases hax : a = x
    · subst hax
      simp only [List.map_cons, lookupD]
      rw [List.find?_cons_of_pos _ (by simp)]
      simp
    · have hstep : lookupD ((a :: as).map (fun l => (l, f l))) x 0
          = lookupD (as.map (fun l => (l, f l))) x 0 := by
        simp only [List.map_cons, lookupD]
        rw [List.find?_cons_of_neg _ (by simpa using hax)]
      rw [hstep, ih]
      have hxa : x ≠ a := fun h => hax h.symm
      simp only [List.mem_cons, hxa, false_or]

/-- C5: for each coverage category, `build_tiv_matrix` uses
category-specific weights only when at least two locations have a
positive category-specific TIV for that coverage; otherwise it
allocates the coverage's premium over all locations using the global
per-location weights (a multi-location split), and the built matrix's
cells are exactly these per-cell entries. -/
theorem c5_category_weight_selection (rows : List TivRow) (c l : String)
    (hc : c ∈ tivCovs rows) (hl : l ∈ tivLocs rows) :
    ((covLocsFor rows c).length < 2 →
      matEntry rows l c
        = lookupD ((tivLocs rows).zip (List.map (fun z : ℤ => (z : ℚ) / 100)
            (allocate_cents (premiumByCov rows c) ((tivLocs rows).map (globalTiv rows))))) l 0)
    ∧ (2 ≤ (covLocsFor rows c).length →
      matEntry rows l c
        = lookupD ((covLocsFor rows c).zip (List.map (fun z : ℤ => (z : ℚ) / 100)
            (allocate_cents (premiumByCov rows c)
              ((covLocsFor rows c).map (covLocTiv rows c))))) l 0)
    ∧ (∀ i j : ℕ, i < (tivLocs rows).length → j < (tivCovs rows).length →
        (((build_tiv_matrix rows).2.2.1.getD i []).getD j 0
          = matEntry rows ((tivLocs rows).getD i "") ((tivCovs rows).getD j ""))) := by
  refine ⟨?_, ?_, ?_⟩
  · intro h2
    have hn2 : ¬ 2 ≤ (covLocsFor rows c).length := by omega
    unfold matEntry
    rw [if_pos ⟨hl, hc⟩]
    unfold covAlloc allocate_cents_for_coverage covAllocLocs covTivMap
    rw [if_neg hn2, if_neg hn2]
    have hmap : (tivLocs rows).map
        (fun x => lookupD ((tivLocs rows).map (fun l0 => (l0, globalTiv rows l0))) x 0)
        = (tivLocs rows).map (globalTiv rows) := by
      refine List.map_congr_left ?_
      intro x hx
      rw [lookupD_map_self, if_pos hx]
    rw [hmap]
  · intro h2
    unfold matEntry
    rw [if_pos ⟨hl, hc⟩]
    unfold covAlloc allocate_cents_for_coverage covAllocLocs covTivMap
    rw [if_pos h2, if_pos h2]
    have hmap : (covLocsFor rows c).map
        (fun x => lookupD ((covLocsFor rows c).map (fun l0 => (l0, covLocTiv rows c l0))) x 0)
        = (covLocsFor rows c).map (covLocTiv rows c) := by
      refine List.map_congr_left ?_
      intro x hx
      rw [lookupD_map_self, if_pos hx]
    rw [hmap]
  · intro i j hi hj
    show (((tivLocs rows).map (fun l1 => (tivCovs rows).map
        (fun c1 => matEntry rows l1 c1))).getD i []).getD j 0 = _
    rw [getD_map_elem _ _ i hi [] "", getD_map_elem _ _ j hj 0 ""]

/-- Demonstration rows for the C5 witness: coverage C1 has a positive
category-specific TIV only at location A, but both locations carry
positive global TIV. -/
def tivDemoRows : List TivRow :=
  [⟨some "A", "C1", 10, 100⟩, ⟨some "B", "C2", 0, 100⟩]

/-- C5 witness: on `tivDemoRows`, coverage C1 has a single
category-weighted location, so the allocator falls back to global
weights and splits the 10-dollar premium 5/5 over both locations
rather than assigning 100 percent to location A. -/
theorem c5_category_weight_selection_witness :
    ("C1" ∈ tivCovs tivDemoRows ∧ "A" ∈ tivLocs tivDemoRows
      ∧ (covLocsFor tivDemoRows "C1").length < 2)
    ∧ matEntry tivDemoRows "A" "C1"
        = lookupD ((tivLocs tivDemoRows).zip (List.map (fun z : ℤ => (z : ℚ) / 100)
            (allocate_cents (premiumByCov tivDemoRows "C1")
              ((tivLocs tivDemoRows).map (globalTiv tivDemoRows))))) "A" 0
    ∧ matEntry tivDemoRows "A" "C1" = 5 ∧ matEntry tivDemoRows "B" "C1" = 5 := by
  have hloc : tivLocs tivDemoRows = ["A", "B"] := by decide
  have hcov : tivCovs tivDemoRows = ["C1", "C2"] := by decide
  have hc : "C1" ∈ tivCovs tivDemoRows := by rw [hcov]; decide
  have hlA : "A" ∈ tivLocs tivDemoRows := by rw [hloc]; decide
  have hlB : "B" ∈ tivLocs tivDemoRows := by rw [hloc]; decide
  have hsAB : ("A" : String) ≠ "B" := by decide
  have hsBA : ("B" : String) ≠ "A" := by decide
  have hsC21 : ("C2" : String) ≠ "C1" := by decide
  have hA1 : covLocTiv tivDemoRows "C1" "A" = 100 := by
    norm_num [covLocTiv, tivDemoRows, hsC21]
  have hB1 : covLocTiv tivDemoRows "C1" "B" = 0 := by
    norm_num [covLocTiv, tivDemoRows, hsC21, hsAB]
  have hcls : covLocsFor tivDemoRows "C1" = ["A"] := by
    rw [covLocsFor, hloc]
    rw [List.filter_cons, List.filter_cons, List.filter_nil, hA1, hB1]
    norm_num
  have hlen : (covLocsFor tivDemoRows "C1").length < 2 := by
    rw [hcls]
    norm_num
  have hgA : globalTiv tivDemoRows "A" = 100 := by
    norm_num [globalTiv, tivDemoRows, hsBA]
  have hgB : globalTiv tivDemoRows "B" = 100 := by
    norm_num [globalTiv, tivDemoRows, hsAB]
  have hP : premiumByCov tivDemoRows "C1" = 10 := by
    norm_num [premiumByCov, tivDemoRows, hsC21]
  have halloc : allocate_cents 10 [100, 100] = [500, 500] := by
    norm_num [allocate_cents, allocMain, allocWeights, rint, sortDescBy, insertDescBy,
      List.range_succ]
  have hval : lookupD ((tivLocs tivDemoRows).zip (List.map (fun z : ℤ => (z : ℚ) / 100)
      (allocate_cents (premiumByCov tivDemoRows "C1")
        ((tivLocs tivDemoRows).map (globalTiv tivDemoRows))))) "A" 0 = 5 := by
    rw [hloc, hP]
    rw [show (["A", "B"].map (globalTiv tivDemoRows)) = [100, 100] by
      rw [List.map_cons, List.map_cons, List.map_nil, hgA, hgB]]
    rw [halloc]
    norm_num [lookupD, List.find?]
  have hvalB : lookupD ((tivLocs tivDemoRows).zip (List.map (fun z : ℤ => (z : ℚ) / 100)
      (allocate_cents (premiumByCov tivDemoRows "C1")
        ((tivLocs tivDemoRows).map (globalTiv tivDemoRows))))) "B" 0 = 5 := by
    rw [hloc, hP]
    rw [show (["A", "B"].map (globalTiv tivDemoRows)) = [100, 100] by
      rw [List.map_cons, List.map_cons, List.map_nil, hgA, hgB]]
    rw [halloc]
    norm_num [lookupD, List.find?, hsAB]
  have heA := (c5_category_weight_selection tivDemoRows "C1" "A" hc hlA).1 hlen
  have heB := (c5_category_weight_selection tivDemoRows "C1" "B" hc hlB).1 hlen
  exact ⟨⟨hc, hlA, hlen⟩, heA, by rw [heA, hval], by rw [heB, hvalB]⟩

/-! ## Sheet loading (tiv_module.py lines 102-140, ras_module.py lines 59-73)

A raw sheet is a header list plus rows of header-keyed cells; a cell is
`Option String` (`none` models NaN/blank).  `getCell` yields `none` for
an absent column, which models the NaN column fill of
`load_ras_sheet`. -/

abbrev RawRow := List (String × Option String)

def getCell (row : RawRow) (h : String) : Option String :=
  match row.find? (fun kv => decide (kv.1 = h)) with
  | some kv => kv.2
  | none => none

/-- Header cleaning applied by `pick_col` (line 69):
`str(c).replace("\xa0", " ").strip()`. -/
def cleanHeader (h : String) : String := pyStrip (pyDropNbsp h)

/-- `_clean_text` (lines 83-87). -/
def cleanText (c : Option String) : String :=
  match c with
  | none => ""
  | some s =>
    let s1 := pyStrip (pyDropNbsp s)
    if pyLower s1 = "nan" ∨ pyLower s1 = "none" then "" else s1

def digitsVal (l : List Char) : ℕ := l.foldl (fun a c => a * 10 + (c.toNat - 48)) 0

/-- Decimal literal parser standing in for Python float parsing /
`pd.to_numeric` on plain decimal strings: optional sign, digits,
optional fractional part; anything else fails to parse. -/
def parsePyFloat (s : String) : Option ℚ :=
  let cs := (pyStrip s).toList
  let sign : ℚ × List Char :=
    match cs with
    | '-' :: rest => (-1, rest)
    | '+' :: rest => (1, rest)
    | _ => (1, cs)
  let intPart := sign.2.takeWhile Char.isDigit
  let rest1 := sign.2.dropWhile Char.isDigit
  match rest1 with
  | [] => if intPart.isEmpty then none else some (sign.1 * digitsVal intPart)
  | '.' :: frac =>
    if frac.all Char.isDigit ∧ ¬(intPart.isEmpty ∧ frac.isEmpty) then
      some (sign.1 * ((digitsVal intPart : ℚ) + (digitsVal frac : ℚ) / (10 ^ frac.length)))
    else none
  | _ => none

/-- `pd.to_numeric(..., errors="coerce").fillna(0.0)` on a cell. -/
def toNumeric (c : Option String) : ℚ := ((c.bind parsePyFloat).getD 0)

/-- `_normalize_loc` (lines 89-100): blank to NaN, integral numerals
like "1.0" to "1". -/
def normalizeLoc (c : Option String) : Option String :=
  let s := cleanText c
  if s = "" then none
  else
    match parsePyFloat s with
    | some q => if q.den = 1 then some (toString q.num) else some s
    | none => some s

/-! ### load_ras_sheet (ras_module.py lines 59-73)

The RAS loader never checks for missing columns: lines 62-64 insert any
absent required column filled with NaN, label columns are stringified,
stripped and nan-cleared, numeric columns coerced with 0.0 fallback.
No error path exists for a missing column. -/

def COL_LOC : String := "Loc #"
def COL_ROW : String := "Premium Total"
def COL_COV : String := "Coverage/Expense"
def COL_COL : String := "Total"
def COL_ENT : String := "Enitity Name"
def COL_ADDR : String := "Address"

/-- Label cleanup of lines 65-68 and 71-72: `astype(str).str.strip()`
(NaN prints as "nan") and then lowercase-"nan" labels cleared to "". -/
def rasLabel (c : Option String) : String :=
  let s := pyStrip (c.getD "nan")
  if pyLower s = "nan" then "" else s

structure RasDf where
  loc : List String
  cov : List String
  ent : List String
  addr : List String
  rowTotal : List ℚ
  colTotal : List ℚ
deriving DecidableEq

def load_ras_sheet (rows : List RawRow) : Except String RasDf :=
  let rows := rows.map (fun r => r.map (fun kv => (pyStrip kv.1, kv.2)))
  .ok
    { loc := rows.map (fun r => rasLabel (getCell r COL_LOC))
      cov := rows.map (fun r => rasLabel (getCell r COL_COV))
      ent := rows.map (fun r => rasLabel (getCell r COL_ENT))
      addr := rows.map (fun r => rasLabel (getCell r COL_ADDR))
      rowTotal := rows.map (fun r => toNumeric (getCell r COL_ROW))
      colTotal := rows.map (fun r => toNumeric (getCell r COL_COL)) }

/-! ### pick_col and load_tiv_sheet (tiv_module.py lines 52-140) -/

def SHEET_TIV : String := "TIV Weighted Dist. - INPUT"
def COV_NAMES : List String := ["Coverage Type", "Coverage/Expense", "Coverage"]
def PREM_NAMES : List String := ["Premium Amount", "Premium", "Premium Total"]
def LOC_NAMES : List String := ["Loc #", "Location #", "Loc"]
def ENT_NAMES : List String := ["Enitity Name", "Entity Name"]
def STREET_NAMES : List String := ["Street", "Address 1", "Address1"]
def CITY_NAMES : List String := ["City"]
def STATE_NAMES : List String := ["State", "ST"]
def ZIP_NAMES : List String := ["Zip-Code", "Zip-code", "Zip Code", "Zip", "Postal Code"]
def TIV_NAMES : List String :=
  ["Insurable Value", "Total Insured Value", "TIV", "TIV ($)", "TIV Amount", "TIV Value",
   "TIV USD", "TIV Total", "Insured Value", "Replacement Cost"]

/-- `norm` of `pick_col` (line 70): lowercase, keep alphanumerics. -/
def pyNorm (s : String) : String := ⟨(pyLower s).toList.filter Char.isAlphanum⟩

/-- Python dict insertion: an existing key keeps its position and takes
the new value. -/
def dictInsert (m : List (String × String)) (k v : String) : List (String × String) :=
  if m.any (fun kv => kv.1 == k) then
    m.map (fun kv => if kv.1 == k then (k, v) else kv)
  else m ++ [(k, v)]

/-- `norm_map = {norm(c): c for c in df.columns}` (line 71). -/
def normMap (cols : List String) : List (String × String) :=
  cols.foldl (fun m c => dictInsert m (pyNorm c) c) []

def lookupStr (m : List (String × String)) (k : String) : Option String :=
  (m.find? (fun kv => kv.1 == k)).map (fun kv => kv.2)

def startsWithL : List Char → List Char → Bool
  | [], _ => true
  | _ :: _, [] => false
  | a :: as, b :: bs => a == b && startsWithL as bs

/-- Python `key in k` on the normalized strings (substring test). -/
def containsL (needle : List Char) : List Char → Bool
  | [] => startsWithL needle []
  | c :: t => startsWithL needle (c :: t) || containsL needle t

/-- `pick_col` (lines 68-81): exact normalized match first, then
normalized-substring match, in candidate order. -/
def pick_col (cols : List String) (candidates : List String) : Option String :=
  let cleaned := cols.map cleanHeader
  let nm := normMap cleaned
  match candidates.findSome? (fun cand => lookupStr nm (pyNorm cand)) with
  | some c => some c
  | none =>
    candidates.findSome? (fun cand =>
      (nm.find? (fun kv => containsL (pyNorm cand).toList kv.1.toList)).map (fun kv => kv.2))

structure TivCols where
  cov : Option String
  pre : Option String
  loc : Option String
  ent : Option String
  street : Option String
  city : Option String
  state : Option String
  zipc : Option String
  tiv : Option String
deriving DecidableEq

/-- The required-column check of lines 116-121. -/
def tivMissing (headers : List String) : List String :=
  let headers1 := headers.map pyStrip
  ([("Coverage", pick_col headers1 COV_NAMES),
    ("Premium Amount", pick_col headers1 PREM_NAMES),
    ("Loc #", pick_col headers1 LOC_NAMES),
    ("TIV/Insurable Value", pick_col headers1 TIV_NAMES)]).filterMap
    (fun nc => if nc.2 = none then some nc.1 else none)

/-- The error message of lines 123-126, naming the missing field(s) and
the headers that were found. -/
def tivMissingMsg (headers : List String) : String :=
  "Missing required column(s) on \x27" ++ SHEET_TIV ++ "\x27: "
    ++ String.intercalate ", " (tivMissing headers)
    ++ "\nHeaders found: " ++ String.intercalate ", " ((headers.map pyStrip).map cleanHeader)

/-- `load_tiv_sheet` (lines 102-140): resolve every logical column,
fail with the descriptive message when a required one is missing,
otherwise clean and coerce the rows. -/
def load_tiv_sheet (headers : List String) (rows : List RawRow) :
    Except String (List TivRow × TivCols) :=
  let headers1 := headers.map pyStrip
  if tivMissing headers = [] then
    let col_cov := pick_col headers1 COV_NAMES
    let col_pre := pick_col headers1 PREM_NAMES
    let col_loc := pick_col headers1 LOC_NAMES
    let col_ent := pick_col headers1 ENT_NAMES
    let col_st := pick_col headers1 STREET_NAMES
    let col_city := pick_col headers1 CITY_NAMES
    let col_state := pick_col headers1 STATE_NAMES
    let col_zip := pick_col headers1 ZIP_NAMES
    let col_tiv := pick_col headers1 TIV_NAMES
    let rows1 := rows.map (fun r => r.map (fun kv => (cleanHeader (pyStrip kv.1), kv.2)))
    .ok (rows1.map (fun r =>
        { cov := cleanText (getCell r (col_cov.getD ""))
          loc := normalizeLoc (getCell r (col_loc.getD ""))
          premium := toNumeric (getCell r (col_pre.getD ""))
          tiv := toNumeric (getCell r (col_tiv.getD "")) }),
      ⟨col_cov, col_pre, col_loc, col_ent, col_st, col_city, col_state, col_zip, col_tiv⟩)
  else .error (tivMissingMsg headers)

/-- C7 counterexample: on a sheet whose only header is "Foo" — every
required column absent — `load_ras_sheet` does not fail: it returns a
full dataframe with the missing label columns defaulted to "" and the
missing numeric columns defaulted to 0.  (`load_tiv_sheet` does fail on
the same headers, as the second conjunct shows.) -/
theorem c7_counterexample :
    load_ras_sheet [[("Foo", some "x")]]
      = Except.ok ⟨[""], [""], [""], [""], [0], [0]⟩
    ∧ load_tiv_sheet ["Foo"] [] = Except.error (tivMissingMsg ["Foo"]) := by
  constructor
  · rfl
  · rw [load_tiv_sheet]
    rw [if_neg (by decide)]

/-- C7 (amended): whenever a required column is entirely absent,
`load_tiv_sheet` fails immediately with the descriptive error naming
the missing field(s) and the headers found, returning no partial
result; `load_ras_sheet`, however, never fails on missing columns — it
substitutes NaN-defaulted columns and returns a complete dataframe. -/
theorem c7_missing_column_errors (headers : List String) (rows : List RawRow)
    (hmiss : tivMissing headers ≠ []) :
    load_tiv_sheet headers rows = Except.error (tivMissingMsg headers)
    ∧ ∀ rows2 : List RawRow, ∃ df : RasDf, load_ras_sheet rows2 = Except.ok df := by
  constructor
  · rw [load_tiv_sheet, if_neg hmiss]
  · intro rows2
    exact ⟨_, rfl⟩

/-- C7 witness: the amended theorem applied to the header list
["Foo"]. -/
theorem c7_missing_column_errors_witness :
    tivMissing ["Foo"] ≠ []
    ∧ (load_tiv_sheet ["Foo"] [] = Except.error (tivMissingMsg ["Foo"])
      ∧ ∀ rows2 : List RawRow, ∃ df : RasDf, load_ras_sheet rows2 = Except.ok df) :=
  ⟨by decide, c7_missing_column_errors ["Foo"] [] (by decide)⟩

end Atlas

